import Mathlib

/-!
Verification of the llama-config proxy's rule engine.

The Go source represents JSON bodies as `map[string]any` and mutates them in
place.  We embed bodies as association lists of string keys and JSON values
(`JObj`), with `setK`/`delK`/`getK` providing Go-map update, delete and lookup
semantics (a Go map has at most one binding per key; `setK` replaces the first
binding in place, or appends).  Go map iteration order is unspecified, but all
iterated updates below commute at the level of lookups, so the fixed list
order used here is a sound deterministic refinement.
-/

namespace LlamaConfig

/-- JSON values as decoded by `encoding/json` into `any` (numbers are modelled
as integers; no claim depends on float arithmetic). -/
inductive JValue where
  | null
  | bool (b : Bool)
  | num (n : Int)
  | str (s : String)
  | arr (elems : List JValue)
  | obj (fields : List (String × JValue))

/-- A JSON object / Go `map[string]any`, as an association list. -/
abbrev JObj := List (String × JValue)

/-- Lookup: the binding of key `k` (Go `data[k]`). -/
def getK (m : JObj) (k : String) : Option JValue :=
  match m with
  | [] => none
  | (k', v) :: rest => if k' = k then some v else getK rest k

/-- Update: `data[k] = v` on a Go map — replace the first binding of `k`
in place, or append a new binding. -/
def setK (m : JObj) (k : String) (v : JValue) : JObj :=
  match m with
  | [] => [(k, v)]
  | (k', v') :: rest => if k' = k then (k', v) :: rest else (k', v') :: setK rest k v

/-- Delete: Go `delete(data, k)`. -/
def delK (m : JObj) (k : String) : JObj :=
  match m with
  | [] => []
  | (k', v') :: rest => if k' = k then delK rest k else (k', v') :: delK rest k

/-- `maps.Copy(dst, src)`: set every binding of `src` in `dst`. -/
def copyAll (dst src : JObj) : JObj :=
  src.foldl (fun acc p => setK acc p.1 p.2) dst

@[simp] theorem getK_nil (k : String) : getK [] k = none := rfl

theorem getK_setK_self (m : JObj) (k : String) (v : JValue) :
    getK (setK m k v) k = some v := by
  induction m with
  | nil => simp [setK, getK]
  | cons p rest ih =>
    obtain ⟨k', v'⟩ := p
    by_cases h : k' = k <;> simp [setK, getK, h, ih]

theorem getK_setK_ne (m : JObj) (k k' : String) (v : JValue) (h : k' ≠ k) :
    getK (setK m k' v) k = getK m k := by
  induction m with
  | nil => simp [setK, getK, h]
  | cons p rest ih =>
    obtain ⟨k₀, v₀⟩ := p
    by_cases h₀ : k₀ = k'
    · subst h₀; simp [setK, getK, h]
    · simp [setK, getK, h₀, ih]

theorem getK_delK_self (m : JObj) (k : String) : getK (delK m k) k = none := by
  induction m with
  | nil => simp [delK]
  | cons p rest ih =>
    obtain ⟨k₀, v₀⟩ := p
    by_cases h₀ : k₀ = k <;> simp [delK, getK, h₀, ih]

theorem getK_delK_ne (m : JObj) (k k' : String) (h : k' ≠ k) :
    getK (delK m k') k = getK m k := by
  induction m with
  | nil => simp [delK]
  | cons p rest ih =>
    obtain ⟨k₀, v₀⟩ := p
    by_cases h₀ : k₀ = k'
    · subst h₀; simp [delK, getK, h, ih]
    · simp [delK, getK, h₀, ih]

/-- A lookup in `copyAll dst src` is either a binding of `src` or falls
through to `dst`. -/
theorem getK_copyAll_cases (dst src : JObj) (k : String) :
    (getK (copyAll dst src) k = getK dst k) ∨
    (∃ v, (k, v) ∈ src ∧ getK (copyAll dst src) k = some v) := by
  induction src generalizing dst with
  | nil => left; rfl
  | cons p rest ih =>
    obtain ⟨k₀, v₀⟩ := p
    rcases ih (setK dst k₀ v₀) with h | ⟨v, hv, hg⟩
    · by_cases hk : k₀ = k
      · subst hk
        right
        exact ⟨v₀, by simp, by simpa [copyAll, getK_setK_self] using h⟩
      · left
        have : getK (setK dst k₀ v₀) k = getK dst k := getK_setK_ne dst k k₀ v₀ hk
        simpa [copyAll, this] using h
    · right
      exact ⟨v, by simp [hv], hg⟩

/-- If `k` is not a key of `src`, `copyAll` does not affect its lookup. -/
theorem getK_copyAll_not_mem (dst src : JObj) (k : String)
    (h : ∀ v, (k, v) ∉ src) : getK (copyAll dst src) k = getK dst k := by
  rcases getK_copyAll_cases dst src k with h' | ⟨v, hv, _⟩
  · exact h'
  · exact absurd hv (h v)

/-! ## Patterns

`PatternField.Validate` (config.go) prepends the `(?i)` flag and compiles each
source string with Go's `regexp` package; `Matches` reports whether any
compiled pattern finds a match anywhere in the input. -/

/-- Case-folded character comparison: under `(?i)` a literal or class element
matches a rune up to case. -/
def lowEq (c d : Char) : Bool := c.toLower == d.toLower

/-- Modelled from the spec: the regex engine itself is Go's `regexp` package,
an external collaborator (only the `(?i)`-prefixing compile and the
`Matches` loop are repository code).  Per §3 a Pattern is a "compiled,
case-insensitive form"; we model the compiled form as a regex AST whose
literal and class tests compare characters case-insensitively. -/
inductive Regex where
  | epsilon
  | lit (c : Char)
  | anyChar
  | cls (cs : List Char) (negated : Bool)
  | cat (r₁ r₂ : Regex)
  | alt (r₁ r₂ : Regex)
  | star (r : Regex)

/-- The regex matching no string at all (empty positive class). -/
def Regex.void : Regex := .cls [] false

/-- Does `r` accept the empty string? -/
def nullable : Regex → Bool
  | .epsilon => true
  | .lit _ => false
  | .anyChar => false
  | .cls _ _ => false
  | .cat r₁ r₂ => nullable r₁ && nullable r₂
  | .alt r₁ r₂ => nullable r₁ || nullable r₂
  | .star _ => true

/-- Brzozowski derivative of `r` by character `c`, with case-folded
character tests. -/
def deriv (r : Regex) (c : Char) : Regex :=
  match r with
  | .epsilon => .void
  | .lit d => if lowEq d c then .epsilon else .void
  | .anyChar => .epsilon
  | .cls cs neg => if (cs.any fun d => lowEq d c) ≠ neg then .epsilon else .void
  | .cat r₁ r₂ =>
      if nullable r₁ then .alt (.cat (deriv r₁ c) r₂) (deriv r₂ c)
      else .cat (deriv r₁ c) r₂
  | .alt r₁ r₂ => .alt (deriv r₁ c) (deriv r₂ c)
  | .star r₁ => .cat (deriv r₁ c) (.star r₁)

/-- Anchored match of `r` against a whole character list. -/
def fullMatch (r : Regex) : List Char → Bool
  | [] => nullable r
  | c :: rest => fullMatch (deriv r c) rest

/-- `regexp.MatchString`: the pattern matches somewhere in the input
(unanchored), i.e. `.*r.*` matches the whole input. -/
def matchString (r : Regex) (s : List Char) : Bool :=
  fullMatch (.cat (.star .anyChar) (.cat r (.star .anyChar))) s

/-- `PatternField` (config.go): regex source strings plus their compiled,
case-insensitive form.  `Validate` guarantees `Compiled` aligns with
`Patterns`; only `Compiled` is consulted by `Matches`. -/
structure PatternField where
  Patterns : List String
  Compiled : List Regex

/-- `PatternField.Matches` (config.go): true iff any compiled pattern
matches the input. -/
def PatternField.Matches (p : PatternField) (input : String) : Bool :=
  p.Compiled.any fun re => matchString re input.data

/-- A compiled pattern that matches every input (`.*`). -/
def anyPattern : PatternField := ⟨[".*"], [.star .anyChar]⟩

/-- A compiled single-literal pattern (`(?i)c`, unanchored). -/
def litPattern (c : Char) : PatternField := ⟨[String.mk [c]], [.lit c]⟩

theorem deriv_lowEq (r : Regex) (c d : Char) (h : c.toLower = d.toLower) :
    deriv r c = deriv r d := by
  induction r with
  | epsilon => rfl
  | lit e => simp [deriv, lowEq, h]
  | anyChar => rfl
  | cls cs neg => simp [deriv, lowEq, h]
  | cat r₁ r₂ ih₁ ih₂ => simp [deriv, ih₁, ih₂]
  | alt r₁ r₂ ih₁ ih₂ => simp [deriv, ih₁, ih₂]
  | star r₁ ih => simp [deriv, ih]

/-- Strings that agree after case folding produce the same anchored match. -/
theorem fullMatch_caseFold (s t : List Char)
    (h : s.map Char.toLower = t.map Char.toLower) (r : Regex) :
    fullMatch r s = fullMatch r t := by
  induction s generalizing r t with
  | nil =>
    cases t with
    | nil => rfl
    | cons d ds => simp at h
  | cons c cs ih =>
    cases t with
    | nil => simp at h
    | cons d ds =>
      simp only [List.map_cons, List.cons.injEq] at h
      rw [fullMatch, fullMatch, deriv_lowEq r c d h.1]
      exact ih ds h.2 _

theorem matchString_caseFold (s t : List Char)
    (h : s.map Char.toLower = t.map Char.toLower) (r : Regex) :
    matchString r s = matchString r t :=
  fullMatch_caseFold s t h _

/-! ## Operation interpreter (config/operations.go) -/

mutual

/-- `fmt.Sprintf("%v", value)`: the canonical Go textual form of a decoded
JSON value, used only as input to pattern matching. -/
def goString : JValue → String
  | .null => "<nil>"
  | .bool b => cond b "true" "false"
  | .num n => toString n
  | .str s => s
  | .arr elems => "[" ++ goStringSeq elems ++ "]"
  | .obj fields => "map[" ++ goStringFields fields ++ "]"

/-- Elements of a Go slice rendered by `%v`: space separated. -/
def goStringSeq : List JValue → String
  | [] => ""
  | [v] => goString v
  | v :: rest => goString v ++ " " ++ goStringSeq rest

/-- Entries of a Go map rendered by `%v`: `key:value`, space separated. -/
def goStringFields : List (String × JValue) → String
  | [] => ""
  | [(k, v)] => k ++ ":" ++ goString v
  | (k, v) :: rest => k ++ ":" ++ goString v ++ " " ++ goStringFields rest
end

/-- `toStringMap` (operations.go): convert the body to strings for pattern
matching. -/
def toStringMap (data : JObj) : List (String × String) :=
  data.map fun p => (p.1, goString p.2)

/-- Lookup in a string-valued map (request/response header map, or the
snapshot produced by `toStringMap`). -/
def lookupStr (m : List (String × String)) (k : String) : Option String :=
  match m with
  | [] => none
  | (k', v) :: rest => if k' = k then some v else lookupStr rest k

/-- `OperationExec` (operations.go).  `Operation` (config.go) has the same
fields and `convertOperation` is the identity cast between them, so one
structure serves both roles. -/
structure OperationExec where
  MatchBody : List (String × PatternField)
  MatchHeaders : List (String × PatternField)
  Template : String
  Merge : JObj
  Default : JObj
  Delete : List String
  Stop : Bool

/-- A compiled `text/template`: execution by the external engine either
errors or emits output text. -/
def TemplateExec : Type := JObj → Except Unit String

/-- Second half of `ExecuteTemplate` (operations.go lines 442-456): parse the
template's textual output as a JSON object (`parse` stands for the external
`json.Unmarshal`); on failure return `false` leaving the map untouched; on
success clear the map and re-populate it from the parse result. -/
def parseTemplateOutput (parse : String → Option JObj) (buf : String)
    (input : JObj) : Bool × JObj :=
  match parse buf with
  | none => (false, input)
  | some result => (true, copyAll [] result)

/-- `ExecuteTemplate` (operations.go lines 434-457): execute the template on
`input` (the external engine may error, leaving the map untouched), then
hand its textual output to `parseTemplateOutput`. -/
def ExecuteTemplate (parse : String → Option JObj) (tmpl : TemplateExec)
    (input : JObj) : Bool × JObj :=
  match tmpl input with
  | .error _ => (false, input)
  | .ok buf => parseTemplateOutput parse buf input

/-- `applyMerge` (operations.go): unconditionally set every merge key in the
body, recording each in the op's change set. -/
def applyMerge (data : JObj) (mergeValues : JObj) (appliedValues : JObj) :
    JObj × JObj :=
  mergeValues.foldl
    (fun acc p => (setK acc.1 p.1 p.2, setK acc.2 p.1 p.2))
    (data, appliedValues)

/-- `applyDefault` (operations.go): set only keys not already present,
recording each set key. -/
def applyDefault (data : JObj) (defaultValues : JObj) (appliedValues : JObj) :
    JObj × JObj :=
  defaultValues.foldl
    (fun acc p =>
      match getK acc.1 p.1 with
      | none => (setK acc.1 p.1 p.2, setK acc.2 p.1 p.2)
      | some _ => acc)
    (data, appliedValues)

/-- `applyDelete` (operations.go): remove each listed key that exists,
recording the sentinel. -/
def applyDelete (data : JObj) (deleteKeys : List String) (appliedValues : JObj) :
    JObj × JObj :=
  deleteKeys.foldl
    (fun acc key =>
      match getK acc.1 key with
      | some _ => (delK acc.1 key, setK acc.2 key (.str "<deleted>"))
      | none => acc)
    (data, appliedValues)

/-- One side of the operation's match conditions (operations.go lines 71-118):
every listed key must be present and its value must match the pattern.  The
source breaks out of the loop at the first failure; `List.all` agrees. -/
def matchCond (vals : List (String × String))
    (conds : List (String × PatternField)) : Bool :=
  conds.all fun c =>
    match lookupStr vals c.1 with
    | none => false
    | some actual => c.2.Matches actual

/-- Interpreter state: the shared body map, the accumulated applied-diff, and
the `anyApplied` flag. -/
structure OpState where
  data : JObj
  appliedValues : JObj
  anyApplied : Bool

/-- The template step of a matched operation (operations.go line 134): runs
only when the operation's `Template` string is non-empty and a compiled
template was supplied at its position. -/
def templateStep (parse : String → Option JObj) (tmplStr : String)
    (tmpl : Option TemplateExec) (data : JObj) : Bool × JObj :=
  if tmplStr == "" then (false, data)
  else
    match tmpl with
    | some t => ExecuteTemplate parse t data
    | none => (false, data)

/-- Working triple of a matched operation: body, the operation's change set
`opChanges`, and the cumulative `appliedValues`. -/
abbrev PhaseState := JObj × JObj × JObj

/-- `default` block of the loop body (operations.go lines 143-148): apply and
flush the change set into `appliedValues`; skipped when the map is empty. -/
def defaultPhase (op : OperationExec) (s : PhaseState) : PhaseState :=
  if op.Default.isEmpty then s
  else
    ((applyDefault s.1 op.Default s.2.1).1, (applyDefault s.1 op.Default s.2.1).2,
      copyAll s.2.2 (applyDefault s.1 op.Default s.2.1).2)

/-- `merge` block (operations.go lines 149-154). -/
def mergePhase (op : OperationExec) (s : PhaseState) : PhaseState :=
  if op.Merge.isEmpty then s
  else
    ((applyMerge s.1 op.Merge s.2.1).1, (applyMerge s.1 op.Merge s.2.1).2,
      copyAll s.2.2 (applyMerge s.1 op.Merge s.2.1).2)

/-- `delete` block (operations.go lines 155-160). -/
def deletePhase (op : OperationExec) (s : PhaseState) : PhaseState :=
  if op.Delete.isEmpty then s
  else
    ((applyDelete s.1 op.Delete s.2.1).1, (applyDelete s.1 op.Delete s.2.1).2,
      copyAll s.2.2 (applyDelete s.1 op.Delete s.2.1).2)

/-- The executed body of one matched operation (operations.go lines 124-186):
template first, then `default`, `merge`, `delete`; `anyApplied` is raised by
a successful template or a non-empty final change set. -/
def runOp (parse : String → Option JObj) (st : OpState) (op : OperationExec)
    (tmpl : Option TemplateExec) : OpState :=
  let t := templateStep parse op.Template tmpl st.data
  let start : PhaseState :=
    (t.2, (if t.1 then copyAll [] t.2 else []),
      (if t.1 then copyAll st.appliedValues t.2 else st.appliedValues))
  let p := deletePhase op (mergePhase op (defaultPhase op start))
  ⟨p.1, p.2.2, (st.anyApplied || t.1) || !p.2.1.isEmpty⟩

/-- The operation loop (operations.go lines 61-187).  `bodyStrings` is the
string snapshot taken once before the loop; templates are consumed
positionally alongside operations.  A failed match skips the operation
(without consulting `Stop`); an executed operation with `Stop` set breaks. -/
def goOps (parse : String → Option JObj) (bodyStrings headers : List (String × String)) :
    OpState → List OperationExec → List (Option TemplateExec) → OpState
  | st, [], _ => st
  | st, op :: rest, templates =>
    let tmpl := (templates.head?).join
    let templatesRest := templates.tail
    if matchCond bodyStrings op.MatchBody && matchCond headers op.MatchHeaders then
      let st' := runOp parse st op tmpl
      if op.Stop then st'
      else goOps parse bodyStrings headers st' rest templatesRest
    else
      goOps parse bodyStrings headers st rest templatesRest

/-- `processOperations` (operations.go): convert the body to strings once,
then run the loop with an empty diff. -/
def processOperations (parse : String → Option JObj) (data : JObj)
    (headers : List (String × String)) (operations : List OperationExec)
    (templates : List (Option TemplateExec)) : OpState :=
  goOps parse (toStringMap data) headers ⟨data, [], false⟩ operations templates

/-- `CompiledRule` fields fused into `Rule` (config.go / operations.go):
matcher, optional path rewrite, and the two operation lists with their
positionally compiled templates. -/
structure Rule where
  Methods : PatternField
  Paths : PatternField
  TargetPath : String
  OnRequest : List OperationExec
  OnResponse : List OperationExec
  OnRequestTemplates : List (Option TemplateExec)
  OnResponseTemplates : List (Option TemplateExec)

/-- `ProcessRequest` (operations.go); the `ruleIndex` argument is only
logged and is omitted. -/
def ProcessRequest (parse : String → Option JObj) (data : JObj)
    (headers : List (String × String)) (rule : Rule) : OpState :=
  processOperations parse data headers rule.OnRequest rule.OnRequestTemplates

/-- `ProcessResponse` (operations.go). -/
def ProcessResponse (parse : String → Option JObj) (data : JObj)
    (headers : List (String × String)) (rule : Rule) : OpState :=
  processOperations parse data headers rule.OnResponse rule.OnResponseTemplates

/-! ## Map lemmas -/

/-- The keys of a map have no duplicates (always true of a genuine Go map;
maps built by `setK` from `[]` satisfy it by construction). -/
def NodupKeys (m : JObj) : Prop := (m.map Prod.fst).Nodup

theorem getK_eq_none_iff (m : JObj) (k : String) :
    getK m k = none ↔ k ∉ m.map Prod.fst := by
  induction m with
  | nil => simp
  | cons p rest ih =>
    obtain ⟨k₀, v₀⟩ := p
    by_cases h : k₀ = k
    · subst h; simp [getK]
    · simp only [getK, if_neg h, ih, List.map_cons, List.mem_cons]
      constructor
      · intro hn
        rintro (rfl | hm)
        · exact h rfl
        · exact hn hm
      · intro hn hm
        exact hn (Or.inr hm)

theorem keys_setK (m : JObj) (k : String) (v : JValue) :
    (setK m k v).map Prod.fst =
      if k ∈ m.map Prod.fst then m.map Prod.fst else m.map Prod.fst ++ [k] := by
  induction m with
  | nil => simp [setK]
  | cons p rest ih =>
    obtain ⟨k₀, v₀⟩ := p
    by_cases h : k₀ = k
    · subst h; simp [setK]
    · simp only [setK, if_neg h, List.map_cons, ih]
      by_cases hmem : k ∈ rest.map Prod.fst <;> simp [hmem, h, Ne.symm h]

theorem nodupKeys_setK (m : JObj) (k : String) (v : JValue) (h : NodupKeys m) :
    NodupKeys (setK m k v) := by
  unfold NodupKeys at *
  rw [keys_setK]
  by_cases hmem : k ∈ m.map Prod.fst
  · simpa [hmem] using h
  · simpa [hmem, List.nodup_append] using h

theorem nodupKeys_nil : NodupKeys [] := List.nodup_nil

theorem nodupKeys_copyAll (dst src : JObj) (h : NodupKeys dst) :
    NodupKeys (copyAll dst src) := by
  induction src generalizing dst with
  | nil => exact h
  | cons p rest ih => exact ih _ (nodupKeys_setK _ _ _ h)

theorem keys_delK (m : JObj) (k : String) :
    (delK m k).map Prod.fst = (m.map Prod.fst).filter (fun k' => k' ≠ k) := by
  induction m with
  | nil => simp [delK]
  | cons p rest ih =>
    obtain ⟨k₀, v₀⟩ := p
    by_cases h : k₀ = k <;> simp [delK, h, ih, List.filter_cons]

theorem nodupKeys_delK (m : JObj) (k : String) (h : NodupKeys m) :
    NodupKeys (delK m k) := by
  unfold NodupKeys at *
  rw [keys_delK]
  exact h.filter _

/-- With duplicate-free source keys, `copyAll` looks up in `src` first and
falls back to `dst`. -/
theorem getK_copyAll (dst src : JObj) (k : String) (h : NodupKeys src) :
    getK (copyAll dst src) k = (getK src k).or (getK dst k) := by
  induction src generalizing dst with
  | nil => simp [copyAll, getK]
  | cons p rest ih =>
    obtain ⟨k₀, v₀⟩ := p
    have htail : NodupKeys rest := by
      unfold NodupKeys at *; exact (List.nodup_cons.mp h).2
    have hstep : copyAll dst ((k₀, v₀) :: rest) = copyAll (setK dst k₀ v₀) rest := rfl
    rw [hstep, ih _ htail]
    by_cases hk : k₀ = k
    · subst hk
      have hrest : getK rest k₀ = none := by
        rw [getK_eq_none_iff]
        unfold NodupKeys at h
        exact (List.nodup_cons.mp h).1
      simp [getK, hrest, getK_setK_self]
    · simp [getK, hk, getK_setK_ne dst k k₀ v₀ hk]

/-- Every binding of `copyAll dst src` at key `k` is a binding from `src` or
`dst`'s own binding. -/
theorem getK_copyAll_origin (dst src : JObj) (k : String) (v : JValue)
    (h : getK (copyAll dst src) k = some v) :
    (k, v) ∈ src ∨ getK dst k = some v := by
  rcases getK_copyAll_cases dst src k with h' | ⟨v', hv', hg⟩
  · right; rw [← h']; exact h
  · left; rw [h] at hg; cases hg; exact hv'

/-! ## Characterizations of the three apply functions -/

theorem applyMerge_cons (d : JObj) (k : String) (v : JValue) (rest c : JObj) :
    applyMerge d ((k, v) :: rest) c = applyMerge (setK d k v) rest (setK c k v) := rfl

theorem applyDefault_cons_absent (d : JObj) (k : String) (v : JValue) (rest c : JObj)
    (h : getK d k = none) :
    applyDefault d ((k, v) :: rest) c = applyDefault (setK d k v) rest (setK c k v) := by
  simp [applyDefault, h]

theorem applyDefault_cons_present (d : JObj) (k : String) (v w : JValue) (rest c : JObj)
    (h : getK d k = some w) :
    applyDefault d ((k, v) :: rest) c = applyDefault d rest c := by
  simp [applyDefault, h]

theorem applyDelete_cons_present (d : JObj) (k : String) (w : JValue) (rest : List String)
    (c : JObj) (h : getK d k = some w) :
    applyDelete d (k :: rest) c =
      applyDelete (delK d k) rest (setK c k (.str "<deleted>")) := by
  simp [applyDelete, h]

theorem applyDelete_cons_absent (d : JObj) (k : String) (rest : List String) (c : JObj)
    (h : getK d k = none) :
    applyDelete d (k :: rest) c = applyDelete d rest c := by
  simp [applyDelete, h]

/-- `merge` leaves unlisted keys alone. -/
theorem getK_applyMerge_not_mem (m : JObj) (d c : JObj) (k : String)
    (h : ∀ v, (k, v) ∉ m) :
    getK (applyMerge d m c).1 k = getK d k := by
  induction m generalizing d c with
  | nil => rfl
  | cons p rest ih =>
    obtain ⟨k₀, v₀⟩ := p
    rw [applyMerge_cons]
    have hk₀ : k₀ ≠ k := fun hk => h v₀ (by simp [hk])
    rw [ih _ _ (fun v hv => h v (List.mem_cons_of_mem _ hv)), getK_setK_ne _ _ _ _ hk₀]

/-- `merge` sets every listed key to its listed value. -/
theorem getK_applyMerge_mem (m : JObj) (d c : JObj) (k : String) (v : JValue)
    (hn : NodupKeys m) (hv : (k, v) ∈ m) :
    getK (applyMerge d m c).1 k = some v := by
  induction m generalizing d c with
  | nil => cases hv
  | cons p rest ih =>
    obtain ⟨k₀, v₀⟩ := p
    rw [applyMerge_cons]
    have htail : NodupKeys rest := (List.nodup_cons.mp hn).2
    rcases List.mem_cons.mp hv with heq | hmem
    · cases heq
      have hnot : ∀ w, (k, w) ∉ rest := by
        intro w hw
        exact (List.nodup_cons.mp hn).1 (List.mem_map.mpr ⟨(k, w), hw, rfl⟩)
      rw [getK_applyMerge_not_mem rest _ _ k hnot]
      exact getK_setK_self d k v
    · exact ih _ _ htail hmem

/-- `default` never overwrites a key that is already present. -/
theorem getK_applyDefault_present (m : JObj) (d c : JObj) (k : String) (v : JValue)
    (h : getK d k = some v) :
    getK (applyDefault d m c).1 k = some v := by
  induction m generalizing d c with
  | nil => exact h
  | cons p rest ih =>
    obtain ⟨k₀, v₀⟩ := p
    cases h₀ : getK d k₀ with
    | none =>
      rw [applyDefault_cons_absent _ _ _ _ _ h₀]
      have hk₀ : k₀ ≠ k := fun hk => by rw [hk, h] at h₀; cases h₀
      exact ih _ _ (by rw [getK_setK_ne _ _ _ _ hk₀]; exact h)
    | some w =>
      rw [applyDefault_cons_present _ _ _ _ _ _ h₀]
      exact ih _ _ h

/-- `default` sets a listed key that is absent. -/
theorem getK_applyDefault_absent (m : JObj) (d c : JObj) (k : String) (v : JValue)
    (hn : NodupKeys m) (hv : (k, v) ∈ m) (h : getK d k = none) :
    getK (applyDefault d m c).1 k = some v := by
  induction m generalizing d c with
  | nil => cases hv
  | cons p rest ih =>
    obtain ⟨k₀, v₀⟩ := p
    have htail : NodupKeys rest := (List.nodup_cons.mp hn).2
    rcases List.mem_cons.mp hv with heq | hmem
    · cases heq
      rw [applyDefault_cons_absent _ _ _ _ _ h]
      exact getK_applyDefault_present rest _ _ k v (getK_setK_self d k v)
    · have hk₀ : k₀ ≠ k := by
        intro hk
        subst hk
        exact (List.nodup_cons.mp hn).1 (List.mem_map.mpr ⟨(k₀, v), hmem, rfl⟩)
      cases h₀ : getK d k₀ with
      | none =>
        rw [applyDefault_cons_absent _ _ _ _ _ h₀]
        exact ih _ _ htail hmem (by rw [getK_setK_ne _ _ _ _ hk₀]; exact h)
      | some w =>
        rw [applyDefault_cons_present _ _ _ _ _ _ h₀]
        exact ih _ _ htail hmem h

/-- `default` leaves unlisted keys alone. -/
theorem getK_applyDefault_not_mem (m : JObj) (d c : JObj) (k : String)
    (h : ∀ v, (k, v) ∉ m) :
    getK (applyDefault d m c).1 k = getK d k := by
  induction m generalizing d c with
  | nil => rfl
  | cons p rest ih =>
    obtain ⟨k₀, v₀⟩ := p
    have hk₀ : k₀ ≠ k := fun hk => h v₀ (by simp [hk])
    have htail : ∀ v, (k, v) ∉ rest := fun v hv => h v (List.mem_cons_of_mem _ hv)
    cases h₀ : getK d k₀ with
    | none =>
      rw [applyDefault_cons_absent _ _ _ _ _ h₀, ih _ _ htail,
        getK_setK_ne _ _ _ _ hk₀]
    | some w =>
      rw [applyDefault_cons_present _ _ _ _ _ _ h₀]
      exact ih _ _ htail

/-- `delete` never adds a key. -/
theorem getK_applyDelete_none (ks : List String) (d c : JObj) (k : String)
    (h : getK d k = none) :
    getK (applyDelete d ks c).1 k = none := by
  induction ks generalizing d c with
  | nil => exact h
  | cons k₀ rest ih =>
    cases h₀ : getK d k₀ with
    | none =>
      rw [applyDelete_cons_absent _ _ _ _ h₀]
      exact ih _ _ h
    | some w =>
      rw [applyDelete_cons_present _ _ _ _ _ h₀]
      refine ih _ _ ?_
      by_cases hk : k₀ = k
      · subst hk; exact getK_delK_self d k₀
      · rw [getK_delK_ne _ _ _ hk]; exact h

/-- Every listed key is gone after `delete`. -/
theorem getK_applyDelete_mem (ks : List String) (d c : JObj) (k : String)
    (h : k ∈ ks) :
    getK (applyDelete d ks c).1 k = none := by
  induction ks generalizing d c with
  | nil => cases h
  | cons k₀ rest ih =>
    by_cases hk : k₀ = k
    · subst hk
      cases h₀ : getK d k₀ with
      | none =>
        rw [applyDelete_cons_absent _ _ _ _ h₀]
        exact getK_applyDelete_none rest _ _ k₀ h₀
      | some w =>
        rw [applyDelete_cons_present _ _ _ _ _ h₀]
        exact getK_applyDelete_none rest _ _ k₀ (getK_delK_self d k₀)
    · have htail : k ∈ rest := by
        rcases List.mem_cons.mp h with rfl | h'
        · exact absurd rfl hk
        · exact h'
      cases h₀ : getK d k₀ with
      | none =>
        rw [applyDelete_cons_absent _ _ _ _ h₀]
        exact ih _ _ htail
      | some w =>
        rw [applyDelete_cons_present _ _ _ _ _ h₀]
        exact ih _ _ htail

/-- Unlisted keys survive `delete` unchanged. -/
theorem getK_applyDelete_not_mem (ks : List String) (d c : JObj) (k : String)
    (h : k ∉ ks) :
    getK (applyDelete d ks c).1 k = getK d k := by
  induction ks generalizing d c with
  | nil => rfl
  | cons k₀ rest ih =>
    have hk₀ : k₀ ≠ k := fun hk => h (by simp [hk])
    have htail : k ∉ rest := fun hm => h (List.mem_cons_of_mem _ hm)
    cases h₀ : getK d k₀ with
    | none =>
      rw [applyDelete_cons_absent _ _ _ _ h₀]
      exact ih _ _ htail
    | some w =>
      rw [applyDelete_cons_present _ _ _ _ _ h₀, ih _ _ htail,
        getK_delK_ne _ _ _ hk₀]

/-- A sentinel record survives the rest of a `delete` fold. -/
theorem getK_applyDelete_changes_stable (ks : List String) (d c : JObj) (k : String)
    (hc : getK c k = some (.str "<deleted>")) :
    getK (applyDelete d ks c).2 k = some (.str "<deleted>") := by
  induction ks generalizing d c with
  | nil => exact hc
  | cons k₀ rest ih =>
    cases h₀ : getK d k₀ with
    | none =>
      rw [applyDelete_cons_absent _ _ _ _ h₀]
      exact ih _ _ hc
    | some w =>
      rw [applyDelete_cons_present _ _ _ _ _ h₀]
      by_cases hk : k₀ = k
      · subst hk; exact ih _ _ (getK_setK_self c k₀ _)
      · exact ih _ _ (by rw [getK_setK_ne _ _ _ _ hk]; exact hc)

/-- `delete` records the sentinel for a listed key that exists. -/
theorem getK_applyDelete_changes_mem (ks : List String) (d c : JObj) (k : String)
    (hmem : k ∈ ks) (hex : getK d k ≠ none) :
    getK (applyDelete d ks c).2 k = some (.str "<deleted>") := by
  induction ks generalizing d c with
  | nil => cases hmem
  | cons k₀ rest ih =>
    by_cases hk : k₀ = k
    · subst hk
      cases h₀ : getK d k₀ with
      | none => exact absurd h₀ hex
      | some w =>
        rw [applyDelete_cons_present _ _ _ _ _ h₀]
        exact getK_applyDelete_changes_stable rest _ _ k₀ (getK_setK_self c k₀ _)
    · have htail : k ∈ rest := by
        rcases List.mem_cons.mp hmem with rfl | h'
        · exact absurd rfl hk
        · exact h'
      cases h₀ : getK d k₀ with
      | none =>
        rw [applyDelete_cons_absent _ _ _ _ h₀]
        exact ih _ _ htail hex
      | some w =>
        rw [applyDelete_cons_present _ _ _ _ _ h₀]
        exact ih _ _ htail (by rw [getK_delK_ne _ _ _ hk]; exact hex)

/-- `delete` records nothing for a key that does not exist. -/
theorem getK_applyDelete_changes_absent (ks : List String) (d c : JObj) (k : String)
    (h : getK d k = none) :
    getK (applyDelete d ks c).2 k = getK c k := by
  induction ks generalizing d c with
  | nil => rfl
  | cons k₀ rest ih =>
    cases h₀ : getK d k₀ with
    | none =>
      rw [applyDelete_cons_absent _ _ _ _ h₀]
      exact ih _ _ h
    | some w =>
      have hk₀ : k₀ ≠ k := fun hk => by subst hk; rw [h] at h₀; cases h₀
      rw [applyDelete_cons_present _ _ _ _ _ h₀,
        ih _ _ (by rw [getK_delK_ne _ _ _ hk₀]; exact h), getK_setK_ne _ _ _ _ hk₀]

/-! ## Sentinel bookkeeping invariants -/

/-- No value of the map is the deletion sentinel string. -/
def noSentinelVals (m : JObj) : Prop := ∀ k v, (k, v) ∈ m → v ≠ .str "<deleted>"

/-- Every key whose applied-diff record is the sentinel is absent from the
body. -/
def SentinelInv (st : OpState) : Prop :=
  ∀ k, getK st.appliedValues k = some (.str "<deleted>") → getK st.data k = none

theorem getK_mem (m : JObj) (k : String) (v : JValue) (h : getK m k = some v) :
    (k, v) ∈ m := by
  induction m with
  | nil => cases h
  | cons p rest ih =>
    obtain ⟨k₀, v₀⟩ := p
    by_cases hk : k₀ = k
    · subst hk
      rw [getK, if_pos rfl] at h
      cases h
      exact List.mem_cons_self _ _
    · rw [getK, if_neg hk] at h
      exact List.mem_cons_of_mem _ (ih h)

theorem mem_setK (m : JObj) (k k' : String) (v v' : JValue)
    (h : (k, v) ∈ setK m k' v') : (k = k' ∧ v = v') ∨ (k, v) ∈ m := by
  induction m with
  | nil =>
    simp [setK] at h
    exact Or.inl h
  | cons p rest ih =>
    obtain ⟨k₀, v₀⟩ := p
    by_cases hk : k₀ = k'
    · subst hk
      rw [setK, if_pos rfl] at h
      rcases List.mem_cons.mp h with heq | hm
      · cases heq; exact Or.inl ⟨rfl, rfl⟩
      · exact Or.inr (List.mem_cons_of_mem _ hm)
    · rw [setK, if_neg hk] at h
      rcases List.mem_cons.mp h with heq | hm
      · cases heq; exact Or.inr (List.mem_cons_self _ _)
      · rcases ih hm with h' | h'
        · exact Or.inl h'
        · exact Or.inr (List.mem_cons_of_mem _ h')

theorem mem_copyAll (dst src : JObj) (k : String) (v : JValue)
    (h : (k, v) ∈ copyAll dst src) : (k, v) ∈ src ∨ (k, v) ∈ dst := by
  induction src generalizing dst with
  | nil => exact Or.inr h
  | cons p rest ih =>
    obtain ⟨k₀, v₀⟩ := p
    rcases ih (setK dst k₀ v₀) h with h' | h'
    · exact Or.inl (List.mem_cons_of_mem _ h')
    · rcases mem_setK dst k k₀ v v₀ h' with ⟨rfl, rfl⟩ | h''
      · exact Or.inl (List.mem_cons_self _ _)
      · exact Or.inr h''

theorem getK_setK_ne_none (m : JObj) (k k' : String) (v : JValue)
    (h : getK m k ≠ none) : getK (setK m k' v) k ≠ none := by
  by_cases hk : k' = k
  · subst hk; rw [getK_setK_self]; simp
  · rw [getK_setK_ne _ _ _ _ hk]; exact h

/-- The change set never loses an entry along `applyDefault`. -/
theorem applyDefault_changes_ne_none (m : JObj) (d c : JObj) (k : String)
    (h : getK c k ≠ none) : getK (applyDefault d m c).2 k ≠ none := by
  induction m generalizing d c with
  | nil => exact h
  | cons p rest ih =>
    obtain ⟨k₀, v₀⟩ := p
    cases h₀ : getK d k₀ with
    | none =>
      rw [applyDefault_cons_absent _ _ _ _ _ h₀]
      exact ih _ _ (getK_setK_ne_none _ _ _ _ h)
    | some w =>
      rw [applyDefault_cons_present _ _ _ _ _ _ h₀]
      exact ih _ _ h

/-- The change set never loses an entry along `applyMerge`. -/
theorem applyMerge_changes_ne_none (m : JObj) (d c : JObj) (k : String)
    (h : getK c k ≠ none) : getK (applyMerge d m c).2 k ≠ none := by
  induction m generalizing d c with
  | nil => exact h
  | cons p rest ih =>
    obtain ⟨k₀, v₀⟩ := p
    rw [applyMerge_cons]
    exact ih _ _ (getK_setK_ne_none _ _ _ _ h)

/-- The change set never loses an entry along `applyDelete`. -/
theorem applyDelete_changes_ne_none (ks : List String) (d c : JObj) (k : String)
    (h : getK c k ≠ none) : getK (applyDelete d ks c).2 k ≠ none := by
  induction ks generalizing d c with
  | nil => exact h
  | cons k₀ rest ih =>
    cases h₀ : getK d k₀ with
    | none =>
      rw [applyDelete_cons_absent _ _ _ _ h₀]
      exact ih _ _ h
    | some w =>
      rw [applyDelete_cons_present _ _ _ _ _ h₀]
      exact ih _ _ (getK_setK_ne_none _ _ _ _ h)

theorem applyDefault_changes_nodup (m : JObj) (d c : JObj) (h : NodupKeys c) :
    NodupKeys (applyDefault d m c).2 := by
  induction m generalizing d c with
  | nil => exact h
  | cons p rest ih =>
    obtain ⟨k₀, v₀⟩ := p
    cases h₀ : getK d k₀ with
    | none =>
      rw [applyDefault_cons_absent _ _ _ _ _ h₀]
      exact ih _ _ (nodupKeys_setK _ _ _ h)
    | some w =>
      rw [applyDefault_cons_present _ _ _ _ _ _ h₀]
      exact ih _ _ h

theorem applyMerge_changes_nodup (m : JObj) (d c : JObj) (h : NodupKeys c) :
    NodupKeys (applyMerge d m c).2 := by
  induction m generalizing d c with
  | nil => exact h
  | cons p rest ih =>
    obtain ⟨k₀, v₀⟩ := p
    rw [applyMerge_cons]
    exact ih _ _ (nodupKeys_setK _ _ _ h)

theorem applyDelete_changes_nodup (ks : List String) (d c : JObj) (h : NodupKeys c) :
    NodupKeys (applyDelete d ks c).2 := by
  induction ks generalizing d c with
  | nil => exact h
  | cons k₀ rest ih =>
    cases h₀ : getK d k₀ with
    | none =>
      rw [applyDelete_cons_absent _ _ _ _ h₀]
      exact ih _ _ h
    | some w =>
      rw [applyDelete_cons_present _ _ _ _ _ h₀]
      exact ih _ _ (nodupKeys_setK _ _ _ h)

/-- Relation between the body/changes pair of one matched operation and the
body as it stood after the template step (`base`): a sentinel record means
the key is gone, and an unrecorded key is untouched. -/
def DInv (base : JObj) (dc : JObj × JObj) : Prop :=
  (∀ k, getK dc.2 k = some (.str "<deleted>") → getK dc.1 k = none) ∧
  (∀ k, getK dc.2 k = none → getK dc.1 k = getK base k)

theorem dinv_applyDefault (base m d c : JObj) (hm : noSentinelVals m)
    (h : DInv base (d, c)) : DInv base (applyDefault d m c) := by
  induction m generalizing d c with
  | nil => exact h
  | cons p rest ih =>
    obtain ⟨k₀, v₀⟩ := p
    have hrest : noSentinelVals rest := fun k v hv => hm k v (List.mem_cons_of_mem _ hv)
    cases h₀ : getK d k₀ with
    | some w =>
      rw [applyDefault_cons_present _ _ _ _ _ _ h₀]
      exact ih _ _ hrest h
    | none =>
      rw [applyDefault_cons_absent _ _ _ _ _ h₀]
      refine ih _ _ hrest ⟨?_, ?_⟩
      · intro k hk
        by_cases hkk : k₀ = k
        · subst hkk
          rw [getK_setK_self] at hk
          cases hk
          exact absurd rfl (hm k₀ _ (List.mem_cons_self _ _))
        · rw [getK_setK_ne _ _ _ _ hkk] at hk ⊢
          exact h.1 k hk
      · intro k hk
        by_cases hkk : k₀ = k
        · subst hkk
          rw [getK_setK_self] at hk
          cases hk
        · rw [getK_setK_ne _ _ _ _ hkk] at hk ⊢
          exact h.2 k hk

theorem dinv_applyMerge (base m d c : JObj) (hm : noSentinelVals m)
    (h : DInv base (d, c)) : DInv base (applyMerge d m c) := by
  induction m generalizing d c with
  | nil => exact h
  | cons p rest ih =>
    obtain ⟨k₀, v₀⟩ := p
    have hrest : noSentinelVals rest := fun k v hv => hm k v (List.mem_cons_of_mem _ hv)
    rw [applyMerge_cons]
    refine ih _ _ hrest ⟨?_, ?_⟩
    · intro k hk
      by_cases hkk : k₀ = k
      · subst hkk
        rw [getK_setK_self] at hk
        cases hk
        exact absurd rfl (hm k₀ _ (List.mem_cons_self _ _))
      · rw [getK_setK_ne _ _ _ _ hkk] at hk ⊢
        exact h.1 k hk
    · intro k hk
      by_cases hkk : k₀ = k
      · subst hkk
        rw [getK_setK_self] at hk
        cases hk
      · rw [getK_setK_ne _ _ _ _ hkk] at hk ⊢
        exact h.2 k hk

theorem dinv_applyDelete (base : JObj) (ks : List String) (d c : JObj)
    (h : DInv base (d, c)) : DInv base (applyDelete d ks c) := by
  induction ks generalizing d c with
  | nil => exact h
  | cons k₀ rest ih =>
    cases h₀ : getK d k₀ with
    | none =>
      rw [applyDelete_cons_absent _ _ _ _ h₀]
      exact ih _ _ h
    | some w =>
      rw [applyDelete_cons_present _ _ _ _ _ h₀]
      refine ih _ _ ⟨?_, ?_⟩
      · intro k hk
        by_cases hkk : k₀ = k
        · subst hkk
          exact getK_delK_self d k₀
        · rw [getK_setK_ne _ _ _ _ hkk] at hk
          rw [getK_delK_ne _ _ _ hkk]
          exact h.1 k hk
      · intro k hk
        by_cases hkk : k₀ = k
        · subst hkk
          rw [getK_setK_self] at hk
          cases hk
        · rw [getK_setK_ne _ _ _ _ hkk] at hk
          rw [getK_delK_ne _ _ _ hkk]
          exact h.2 k hk

/-- Bundle carried through the three phases of one matched operation:
`DInv` against the post-template body `base`, duplicate-free change keys,
and: a sentinel in `appliedValues` is either freshly recorded in the change
set or was already in the diff when the operation started. -/
def ChainP (stApplied base : JObj) (s : PhaseState) : Prop :=
  DInv base (s.1, s.2.1) ∧ NodupKeys s.2.1 ∧
  ∀ k, getK s.2.2 k = some (.str "<deleted>") →
    getK s.2.1 k = some (.str "<deleted>") ∨
      (getK s.2.1 k = none ∧ getK stApplied k = some (.str "<deleted>"))

theorem chainP_defaultPhase (stApplied base : JObj) (op : OperationExec)
    (s : PhaseState) (hm : noSentinelVals op.Default)
    (h : ChainP stApplied base s) : ChainP stApplied base (defaultPhase op s) := by
  unfold defaultPhase
  by_cases hE : op.Default.isEmpty
  · rw [if_pos hE]; exact h
  · rw [if_neg hE]
    obtain ⟨hD, hN, hP⟩ := h
    have hnod := applyDefault_changes_nodup op.Default s.1 s.2.1 hN
    refine ⟨dinv_applyDefault base op.Default s.1 s.2.1 hm hD, hnod, ?_⟩
    intro k hk
    rw [getK_copyAll _ _ _ hnod] at hk
    cases hc : getK (applyDefault s.1 op.Default s.2.1).2 k with
    | some v =>
      rw [hc] at hk
      exact Or.inl hk
    | none =>
      rw [hc] at hk
      rcases hP k hk with hs | ⟨hn, hd⟩
      · exact absurd hc (applyDefault_changes_ne_none _ _ _ _ (by rw [hs]; simp))
      · exact Or.inr ⟨rfl, hd⟩

theorem chainP_mergePhase (stApplied base : JObj) (op : OperationExec)
    (s : PhaseState) (hm : noSentinelVals op.Merge)
    (h : ChainP stApplied base s) : ChainP stApplied base (mergePhase op s) := by
  unfold mergePhase
  by_cases hE : op.Merge.isEmpty
  · rw [if_pos hE]; exact h
  · rw [if_neg hE]
    obtain ⟨hD, hN, hP⟩ := h
    have hnod := applyMerge_changes_nodup op.Merge s.1 s.2.1 hN
    refine ⟨dinv_applyMerge base op.Merge s.1 s.2.1 hm hD, hnod, ?_⟩
    intro k hk
    rw [getK_copyAll _ _ _ hnod] at hk
    cases hc : getK (applyMerge s.1 op.Merge s.2.1).2 k with
    | some v =>
      rw [hc] at hk
      exact Or.inl hk
    | none =>
      rw [hc] at hk
      rcases hP k hk with hs | ⟨hn, hd⟩
      · exact absurd hc (applyMerge_changes_ne_none _ _ _ _ (by rw [hs]; simp))
      · exact Or.inr ⟨rfl, hd⟩

theorem chainP_deletePhase (stApplied base : JObj) (op : OperationExec)
    (s : PhaseState) (h : ChainP stApplied base s) :
    ChainP stApplied base (deletePhase op s) := by
  unfold deletePhase
  by_cases hE : op.Delete.isEmpty
  · rw [if_pos hE]; exact h
  · rw [if_neg hE]
    obtain ⟨hD, hN, hP⟩ := h
    have hnod := applyDelete_changes_nodup op.Delete s.1 s.2.1 hN
    refine ⟨dinv_applyDelete base op.Delete s.1 s.2.1 hD, hnod, ?_⟩
    intro k hk
    rw [getK_copyAll _ _ _ hnod] at hk
    cases hc : getK (applyDelete s.1 op.Delete s.2.1).2 k with
    | some v =>
      rw [hc] at hk
      exact Or.inl hk
    | none =>
      rw [hc] at hk
      rcases hP k hk with hs | ⟨hn, hd⟩
      · exact absurd hc (applyDelete_changes_ne_none _ _ _ _ (by rw [hs]; simp))
      · exact Or.inr ⟨rfl, hd⟩

theorem defaultPhase_changes_ne_none (op : OperationExec) (s : PhaseState)
    (k : String) (h : getK s.2.1 k ≠ none) :
    getK (defaultPhase op s).2.1 k ≠ none := by
  unfold defaultPhase
  by_cases hE : op.Default.isEmpty
  · rw [if_pos hE]; exact h
  · rw [if_neg hE]
    exact applyDefault_changes_ne_none op.Default s.1 s.2.1 k h

theorem mergePhase_changes_ne_none (op : OperationExec) (s : PhaseState)
    (k : String) (h : getK s.2.1 k ≠ none) :
    getK (mergePhase op s).2.1 k ≠ none := by
  unfold mergePhase
  by_cases hE : op.Merge.isEmpty
  · rw [if_pos hE]; exact h
  · rw [if_neg hE]
    exact applyMerge_changes_ne_none op.Merge s.1 s.2.1 k h

theorem deletePhase_changes_ne_none (op : OperationExec) (s : PhaseState)
    (k : String) (h : getK s.2.1 k ≠ none) :
    getK (deletePhase op s).2.1 k ≠ none := by
  unfold deletePhase
  by_cases hE : op.Delete.isEmpty
  · rw [if_pos hE]; exact h
  · rw [if_neg hE]
    exact applyDelete_changes_ne_none op.Delete s.1 s.2.1 k h

/-- The template step either leaves the body alone or replaces it with a
parsed template output. -/
theorem templateStep_cases (parse : String → Option JObj) (tmplStr : String)
    (tmpl : Option TemplateExec) (data : JObj) :
    templateStep parse tmplStr tmpl data = (false, data) ∨
    ∃ t buf r, tmpl = some t ∧ t data = .ok buf ∧ parse buf = some r ∧
      templateStep parse tmplStr tmpl data = (true, copyAll [] r) := by
  by_cases hs : (tmplStr == "" : Bool)
  · left
    unfold templateStep
    rw [if_pos hs]
  · cases tmpl with
    | none =>
      left
      unfold templateStep
      rw [if_neg hs]
    | some t =>
      have hred : templateStep parse tmplStr (some t) data = ExecuteTemplate parse t data := by
        unfold templateStep
        rw [if_neg hs]
      rw [hred]
      unfold ExecuteTemplate
      split
      · exact Or.inl rfl
      · rename_i buf he
        unfold parseTemplateOutput
        split
        · exact Or.inl rfl
        · rename_i r hp
          exact Or.inr ⟨t, buf, r, rfl, he, hp, rfl⟩

/-- One matched operation preserves the sentinel/absence correspondence,
provided none of its supplied values is the literal sentinel string. -/
theorem runOp_sentinel (parse : String → Option JObj) (st : OpState)
    (op : OperationExec) (tmpl : Option TemplateExec)
    (hd : noSentinelVals op.Default) (hm : noSentinelVals op.Merge)
    (ht : ∀ t buf r, tmpl = some t → t st.data = .ok buf → parse buf = some r →
      noSentinelVals r)
    (hinv : SentinelInv st) : SentinelInv (runOp parse st op tmpl) := by
  rcases templateStep_cases parse op.Template tmpl st.data with hts | ⟨t, buf, r, htm, he, hp, hts⟩
  · -- no template applied: the phases start from the untouched state
    have hstart : ChainP st.appliedValues st.data (st.data, [], st.appliedValues) := by
      refine ⟨⟨?_, ?_⟩, nodupKeys_nil, ?_⟩
      · intro k hk; cases hk
      · intro k _; rfl
      · intro k hk; exact Or.inr ⟨rfl, hk⟩
    have hchain := chainP_deletePhase _ _ op _
      (chainP_mergePhase _ _ op _ hm (chainP_defaultPhase _ _ op _ hd hstart))
    obtain ⟨⟨hD1, hD2⟩, _, hP⟩ := hchain
    have hru : runOp parse st op tmpl =
        ⟨(deletePhase op (mergePhase op (defaultPhase op
            (st.data, [], st.appliedValues)))).1,
          (deletePhase op (mergePhase op (defaultPhase op
            (st.data, [], st.appliedValues)))).2.2,
          (st.anyApplied || false) || !(deletePhase op (mergePhase op (defaultPhase op
            (st.data, [], st.appliedValues)))).2.1.isEmpty⟩ := by
      unfold runOp
      rw [hts]
      rfl
    rw [hru]
    intro k hk
    rcases hP k hk with hs | ⟨hn, hsent⟩
    · exact hD1 k hs
    · exact (hD2 k hn).trans (hinv k hsent)
  · -- template replaced the body with the parse result `r`
    have hr : noSentinelVals r := ht t buf r htm he hp
    have hDnod : NodupKeys (copyAll [] r) := nodupKeys_copyAll [] r nodupKeys_nil
    have hCnod : NodupKeys (copyAll [] (copyAll [] r)) :=
      nodupKeys_copyAll [] _ nodupKeys_nil
    have hlook : ∀ k, getK (copyAll [] (copyAll [] r)) k = getK (copyAll [] r) k := by
      intro k
      rw [getK_copyAll _ _ _ hDnod]
      cases getK (copyAll [] r) k with
      | none => rfl
      | some v => rfl
    have hnosent : ∀ k, getK (copyAll [] r) k ≠ some (.str "<deleted>") := by
      intro k hk
      rcases mem_copyAll [] r k _ (getK_mem _ _ _ hk) with hin | hin
      · exact hr k _ hin rfl
      · cases hin
    have hstart : ChainP st.appliedValues (copyAll [] r)
        (copyAll [] r, copyAll [] (copyAll [] r), copyAll st.appliedValues (copyAll [] r)) := by
      refine ⟨⟨?_, ?_⟩, hCnod, ?_⟩
      · intro k hk
        rw [hlook k] at hk
        exact absurd hk (hnosent k)
      · intro k _; rfl
      · intro k hk
        rw [getK_copyAll _ _ _ hDnod] at hk
        cases hc : getK (copyAll [] r) k with
        | some v =>
          rw [hc] at hk
          exact absurd (hc.trans hk) (hnosent k)
        | none =>
          rw [hc] at hk
          exact Or.inr ⟨by rw [hlook k, hc], hk⟩
    have hchain := chainP_deletePhase _ _ op _
      (chainP_mergePhase _ _ op _ hm (chainP_defaultPhase _ _ op _ hd hstart))
    obtain ⟨⟨hD1, hD2⟩, _, hP⟩ := hchain
    have hru : runOp parse st op tmpl =
        ⟨(deletePhase op (mergePhase op (defaultPhase op
            (copyAll [] r, copyAll [] (copyAll [] r),
              copyAll st.appliedValues (copyAll [] r))))).1,
          (deletePhase op (mergePhase op (defaultPhase op
            (copyAll [] r, copyAll [] (copyAll [] r),
              copyAll st.appliedValues (copyAll [] r))))).2.2,
          (st.anyApplied || true) || !(deletePhase op (mergePhase op (defaultPhase op
            (copyAll [] r, copyAll [] (copyAll [] r),
              copyAll st.appliedValues (copyAll [] r))))).2.1.isEmpty⟩ := by
      unfold runOp
      rw [hts]
      rfl
    rw [hru]
    intro k hk
    rcases hP k hk with hs | ⟨hn, hsent⟩
    · exact hD1 k hs
    · -- the final change set has no entry at k, so neither did the
      -- template change set, hence the template body has no binding at k
      have hchanges : getK (copyAll [] (copyAll [] r)) k = none := by
        by_contra hne
        exact deletePhase_changes_ne_none op _ k
          (mergePhase_changes_ne_none op _ k
            (defaultPhase_changes_ne_none op _ k hne)) hn
      exact (hD2 k hn).trans ((hlook k).symm.trans hchanges)

/-- The operation loop preserves the sentinel/absence correspondence. -/
theorem goOps_sentinel (parse : String → Option JObj)
    (bodyStrings headers : List (String × String)) (ops : List OperationExec)
    (tmpls : List (Option TemplateExec)) (st : OpState)
    (hops : ∀ op ∈ ops, noSentinelVals op.Default ∧ noSentinelVals op.Merge)
    (htm : ∀ t, some t ∈ tmpls → ∀ d buf r, t d = .ok buf → parse buf = some r →
      noSentinelVals r)
    (hinv : SentinelInv st) :
    SentinelInv (goOps parse bodyStrings headers st ops tmpls) := by
  induction ops generalizing st tmpls with
  | nil => exact hinv
  | cons op rest ih =>
    rw [goOps]
    have hop := hops op (List.mem_cons_self _ _)
    have hrest : ∀ o ∈ rest, noSentinelVals o.Default ∧ noSentinelVals o.Merge :=
      fun o ho => hops o (List.mem_cons_of_mem _ ho)
    have htail : ∀ t, some t ∈ tmpls.tail → ∀ d buf r, t d = .ok buf →
        parse buf = some r → noSentinelVals r := by
      intro t htmem
      exact htm t (List.mem_of_mem_tail htmem)
    have hhead : ∀ t buf r, (tmpls.head?).join = some t → t st.data = .ok buf →
        parse buf = some r → noSentinelVals r := by
      intro t buf r hj
      cases tmpls with
      | nil => cases hj
      | cons x xs =>
        have hx : x = some t := hj
        exact htm t (by rw [hx]; exact List.mem_cons_self _ _) st.data buf r
    by_cases hmc : (matchCond bodyStrings op.MatchBody && matchCond headers op.MatchHeaders : Bool)
    · rw [if_pos hmc]
      have hst' := runOp_sentinel parse st op ((tmpls.head?).join) hop.1 hop.2 hhead hinv
      by_cases hstop : op.Stop
      · rw [if_pos hstop]; exact hst'
      · rw [if_neg hstop]; exact ih _ _ hrest htail hst'
    · rw [if_neg hmc]
      exact ih _ _ hrest htail hinv

/-! ## Further equations used by the claim theorems -/

theorem setK_append_absent (m : JObj) (k : String) (v : JValue)
    (h : getK m k = none) : setK m k v = m ++ [(k, v)] := by
  induction m with
  | nil => rfl
  | cons p rest ih =>
    obtain ⟨k₀, v₀⟩ := p
    by_cases hk : k₀ = k
    · subst hk
      rw [getK, if_pos rfl] at h
      cases h
    · rw [getK, if_neg hk] at h
      rw [setK, if_neg hk, ih h]
      rfl

theorem getK_append (a b : JObj) (k : String) :
    getK (a ++ b) k = (getK a k).or (getK b k) := by
  induction a with
  | nil => rfl
  | cons p rest ih =>
    obtain ⟨k₀, v₀⟩ := p
    by_cases hk : k₀ = k
    · subst hk
      simp [getK]
    · simp [getK, hk, ih]

theorem copyAll_of_disjoint (src : JObj) (dst : JObj) (hn : NodupKeys src)
    (hd : ∀ k v, (k, v) ∈ src → getK dst k = none) :
    copyAll dst src = dst ++ src := by
  induction src generalizing dst with
  | nil => simp [copyAll]
  | cons p rest ih =>
    obtain ⟨k₀, v₀⟩ := p
    have habs : getK dst k₀ = none := hd k₀ v₀ (List.mem_cons_self _ _)
    have hstep : copyAll dst ((k₀, v₀) :: rest) = copyAll (setK dst k₀ v₀) rest := rfl
    rw [hstep, setK_append_absent dst k₀ v₀ habs]
    have htail : NodupKeys rest := (List.nodup_cons.mp hn).2
    have hd' : ∀ k v, (k, v) ∈ rest → getK (dst ++ [(k₀, v₀)]) k = none := by
      intro k v hv
      rw [getK_append]
      have h1 : getK dst k = none := hd k v (List.mem_cons_of_mem _ hv)
      have hk₀ : k₀ ≠ k := by
        intro hk
        subst hk
        exact (List.nodup_cons.mp hn).1 (List.mem_map.mpr ⟨(k₀, v), hv, rfl⟩)
      rw [h1]
      simp [getK, hk₀]
    rw [ih _ htail hd', List.append_assoc]
    rfl

/-- Copying a duplicate-free map into the empty map reproduces it exactly. -/
theorem copyAll_nil (src : JObj) (h : NodupKeys src) : copyAll [] src = src := by
  simpa using copyAll_of_disjoint src [] h (fun _ _ _ => rfl)

/-- The loop step equation: a matched operation executes and then consults
`Stop`; a failed match skips to the remaining operations. -/
theorem goOps_cons (parse : String → Option JObj)
    (bodyStrings headers : List (String × String)) (st : OpState)
    (op : OperationExec) (rest : List OperationExec)
    (tmpl : Option TemplateExec) (tmpls : List (Option TemplateExec)) :
    goOps parse bodyStrings headers st (op :: rest) (tmpl :: tmpls) =
      if matchCond bodyStrings op.MatchBody && matchCond headers op.MatchHeaders then
        (if op.Stop then runOp parse st op tmpl
         else goOps parse bodyStrings headers (runOp parse st op tmpl) rest tmpls)
      else goOps parse bodyStrings headers st rest tmpls := rfl

theorem defaultPhase_pair (op : OperationExec) (s : PhaseState) :
    ((defaultPhase op s).1, (defaultPhase op s).2.1) =
      applyDefault s.1 op.Default s.2.1 := by
  unfold defaultPhase
  by_cases hE : op.Default.isEmpty
  · rw [if_pos hE, List.isEmpty_iff.mp hE]
    rfl
  · rw [if_neg hE]

theorem mergePhase_pair (op : OperationExec) (s : PhaseState) :
    ((mergePhase op s).1, (mergePhase op s).2.1) =
      applyMerge s.1 op.Merge s.2.1 := by
  unfold mergePhase
  by_cases hE : op.Merge.isEmpty
  · rw [if_pos hE, List.isEmpty_iff.mp hE]
    rfl
  · rw [if_neg hE]

theorem deletePhase_pair (op : OperationExec) (s : PhaseState) :
    ((deletePhase op s).1, (deletePhase op s).2.1) =
      applyDelete s.1 op.Delete s.2.1 := by
  unfold deletePhase
  by_cases hE : op.Delete.isEmpty
  · rw [if_pos hE, List.isEmpty_iff.mp hE]
    rfl
  · rw [if_neg hE]

/-! ## Claim C1 -/

/-- C1: the operation interpreter processes a rule's operations in order.
An operation whose match conditions fail is skipped — the interpreter state
is unchanged and the `Stop` flag of the skipped operation is not consumed,
even when it is true — while a matched operation applies, on top of its
template step, first `default` (setting only keys not already present), then
`merge` (unconditionally setting every listed key), then `delete` (removing
only keys that exist, and recording the sentinel `"<deleted>"` in the
applied diff exactly for the removed keys), and only afterwards consults
`Stop`: when it is true no later operation of the same rule executes. -/
theorem c1_interpreter_order (parse : String → Option JObj)
    (bodyStrings headers : List (String × String)) (st : OpState)
    (op : OperationExec) (rest : List OperationExec)
    (tmpl : Option TemplateExec) (tmpls : List (Option TemplateExec)) :
    -- a skipped operation leaves the state unchanged and never stops the loop
    ((matchCond bodyStrings op.MatchBody && matchCond headers op.MatchHeaders) = false →
      goOps parse bodyStrings headers st (op :: rest) (tmpl :: tmpls) =
        goOps parse bodyStrings headers st rest tmpls) ∧
    -- a matched operation executes, and its Stop flag halts the rule
    ((matchCond bodyStrings op.MatchBody && matchCond headers op.MatchHeaders) = true →
      goOps parse bodyStrings headers st (op :: rest) (tmpl :: tmpls) =
        (if op.Stop then runOp parse st op tmpl
         else goOps parse bodyStrings headers (runOp parse st op tmpl) rest tmpls)) ∧
    -- the executed phases are exactly default, then merge, then delete
    (∀ s : PhaseState,
      ((deletePhase op (mergePhase op (defaultPhase op s))).1,
        (deletePhase op (mergePhase op (defaultPhase op s))).2.1) =
        applyDelete
          (applyMerge (applyDefault s.1 op.Default s.2.1).1 op.Merge
            (applyDefault s.1 op.Default s.2.1).2).1
          op.Delete
          (applyMerge (applyDefault s.1 op.Default s.2.1).1 op.Merge
            (applyDefault s.1 op.Default s.2.1).2).2) ∧
    -- default sets only keys not already present
    (∀ (d c : JObj) (k : String) (v : JValue), getK d k = some v →
      getK (applyDefault d op.Default c).1 k = some v) ∧
    (∀ (d c : JObj) (k : String) (v : JValue), NodupKeys op.Default →
      (k, v) ∈ op.Default → getK d k = none →
      getK (applyDefault d op.Default c).1 k = some v) ∧
    -- merge unconditionally sets every listed key
    (∀ (d c : JObj) (k : String) (v : JValue), NodupKeys op.Merge →
      (k, v) ∈ op.Merge → getK (applyMerge d op.Merge c).1 k = some v) ∧
    -- delete removes exactly the listed keys that exist
    (∀ (d c : JObj) (k : String), k ∈ op.Delete →
      getK (applyDelete d op.Delete c).1 k = none) ∧
    (∀ (d c : JObj) (k : String), k ∉ op.Delete →
      getK (applyDelete d op.Delete c).1 k = getK d k) ∧
    -- and records the sentinel exactly for the listed keys that existed
    (∀ (d c : JObj) (k : String), k ∈ op.Delete → getK d k ≠ none →
      getK (applyDelete d op.Delete c).2 k = some (.str "<deleted>")) ∧
    (∀ (d c : JObj) (k : String), getK d k = none →
      getK (applyDelete d op.Delete c).2 k = getK c k) := by
  refine ⟨?_, ?_, ?_, ?_, ?_, ?_, ?_, ?_, ?_, ?_⟩
  · intro h
    rw [goOps_cons, if_neg (by simp [h])]
  · intro h
    rw [goOps_cons, if_pos h]
  · intro s
    have hm := mergePhase_pair op (defaultPhase op s)
    have hd := defaultPhase_pair op s
    rw [deletePhase_pair op (mergePhase op (defaultPhase op s)),
      show (mergePhase op (defaultPhase op s)).1 =
        (applyMerge (defaultPhase op s).1 op.Merge (defaultPhase op s).2.1).1 from
        congrArg Prod.fst hm,
      show (mergePhase op (defaultPhase op s)).2.1 =
        (applyMerge (defaultPhase op s).1 op.Merge (defaultPhase op s).2.1).2 from
        congrArg Prod.snd hm,
      show (defaultPhase op s).1 = (applyDefault s.1 op.Default s.2.1).1 from
        congrArg Prod.fst hd,
      show (defaultPhase op s).2.1 = (applyDefault s.1 op.Default s.2.1).2 from
        congrArg Prod.snd hd]
  · intro d c k v h
    exact getK_applyDefault_present op.Default d c k v h
  · intro d c k v hn hv h
    exact getK_applyDefault_absent op.Default d c k v hn hv h
  · intro d c k v hn hv
    exact getK_applyMerge_mem op.Merge d c k v hn hv
  · intro d c k h
    exact getK_applyDelete_mem op.Delete d c k h
  · intro d c k h
    exact getK_applyDelete_not_mem op.Delete d c k h
  · intro d c k hmem hex
    exact getK_applyDelete_changes_mem op.Delete d c k hmem hex
  · intro d c k h
    exact getK_applyDelete_changes_absent op.Delete d c k h

/-- A parse function standing for `json.Unmarshal` that always fails;
template behaviour is irrelevant to the runs that use it. -/
def noParse : String → Option JObj := fun _ => none

/-- An operation whose body condition cannot match an empty body and whose
`Stop` flag is set. -/
def opSkipStop : OperationExec :=
  ⟨[("x", anyPattern)], [], "", [("y", .num 1)], [], [], true⟩

/-- An operation that only deletes the key `"a"`. -/
def opDeleteA : OperationExec := ⟨[], [], "", [], [], ["a"], false⟩

/-- Witness for C1 at concrete inputs: a failed match skips the operation
without stopping, and `delete` removes an existing key while recording the
sentinel. -/
theorem c1_interpreter_order_witness :
    goOps noParse [] [] ⟨[], [], false⟩ [opSkipStop] [none] =
      goOps noParse [] [] ⟨[], [], false⟩ [] [] ∧
    getK (applyDelete [("a", .num 1)] ["a"] []).1 "a" = none ∧
    getK (applyDelete [("a", .num 1)] ["a"] []).2 "a" = some (.str "<deleted>") := by
  refine ⟨?_, ?_, ?_⟩
  · exact (c1_interpreter_order noParse [] [] ⟨[], [], false⟩ opSkipStop [] none []).1 rfl
  · exact (c1_interpreter_order noParse [] [] ⟨[], [], false⟩ opDeleteA [] none
      []).2.2.2.2.2.2.1 [("a", .num 1)] [] "a" (by simp [opDeleteA])
  · exact (c1_interpreter_order noParse [] [] ⟨[], [], false⟩ opDeleteA [] none
      []).2.2.2.2.2.2.2.2.1 [("a", .num 1)] [] "a" (by simp [opDeleteA])
      (by intro h; cases h)

/-! ## Claim C5 -/

/-- The first operation of the C5 counterexample: delete the key `"x"`. -/
def opDeleteX : OperationExec := ⟨[], [], "", [], [], ["x"], false⟩

/-- The second operation of the C5 counterexample: conditioned on `"x"`
matching `a`, merge `y`. -/
def opMatchX : OperationExec :=
  ⟨[("x", litPattern 'a')], [], "", [("y", .num 1)], [], [], false⟩

/-- C5 as frozen is false on the code: `processOperations` converts the body
to strings once, before the loop, so `match_body` is evaluated against the
snapshot of the body at entry, not the current body.  Here the first
operation deletes `"x"`, after which `"x"` is not present in the body, yet
the second operation (conditioned on `"x"`) still executes and merges
`"y"`. -/
theorem c5_counterexample :
    getK (processOperations noParse [("x", .str "a")] [] [opDeleteX, opMatchX]
      [none, none]).data "y" = some (.num 1) ∧
    getK (processOperations noParse [("x", .str "a")] [] [opDeleteX]
      [none]).data "x" = none := by
  exact ⟨rfl, rfl⟩

/-- C5 (amended): an Operation executes only when every key of its
`match_body` map is present in the string snapshot of the body taken when
the rule's operation processing began — not the current body — with its
snapshot value matching the associated Pattern, and every key of
`match_headers` is present among the headers with its first value matching;
an Operation whose condition maps are both empty always executes. -/
theorem c5_match_against_snapshot :
    (∀ (vals : List (String × String)) (conds : List (String × PatternField)),
      matchCond vals conds = true ↔
        ∀ c ∈ conds, ∃ actual, lookupStr vals c.1 = some actual ∧
          c.2.Matches actual = true) ∧
    (∀ (bodyStrings headers : List (String × String)) (op : OperationExec),
      op.MatchBody = [] → op.MatchHeaders = [] →
      (matchCond bodyStrings op.MatchBody &&
        matchCond headers op.MatchHeaders) = true) ∧
    (∀ (parse : String → Option JObj) (data : JObj)
      (headers : List (String × String)) (operations : List OperationExec)
      (templates : List (Option TemplateExec)),
      processOperations parse data headers operations templates =
        goOps parse (toStringMap data) headers ⟨data, [], false⟩ operations templates) := by
  refine ⟨?_, ?_, ?_⟩
  · intro vals conds
    rw [matchCond, List.all_eq_true]
    constructor
    · intro h c hc
      have hx := h c hc
      cases hl : lookupStr vals c.1 with
      | none => rw [hl] at hx; cases hx
      | some actual =>
        rw [hl] at hx
        exact ⟨actual, rfl, hx⟩
    · intro h c hc
      obtain ⟨actual, hl, hmt⟩ := h c hc
      rw [hl]
      exact hmt
  · intro bodyStrings headers op h1 h2
    rw [h1, h2]
    rfl
  · intro parse data headers operations templates
    rfl

/-- Witness for C5 (amended): an operation with empty condition maps always
passes the match check. -/
theorem c5_match_against_snapshot_witness :
    (matchCond [] (OperationExec.MatchBody ⟨[], [], "", [], [], [], false⟩) &&
      matchCond [] (OperationExec.MatchHeaders ⟨[], [], "", [], [], [], false⟩)) = true :=
  c5_match_against_snapshot.2.1 [] [] ⟨[], [], "", [], [], [], false⟩ rfl rfl

/-! ## Claim C6 -/

theorem ExecuteTemplate_error (parse : String → Option JObj) (tmpl : TemplateExec)
    (input : JObj) (e : Unit) (he : tmpl input = .error e) :
    ExecuteTemplate parse tmpl input = (false, input) := by
  unfold ExecuteTemplate
  rw [he]

theorem ExecuteTemplate_ok (parse : String → Option JObj) (tmpl : TemplateExec)
    (input : JObj) (buf : String) (he : tmpl input = .ok buf) :
    ExecuteTemplate parse tmpl input = parseTemplateOutput parse buf input := by
  unfold ExecuteTemplate
  rw [he]

theorem parseTemplateOutput_none (parse : String → Option JObj) (buf : String)
    (input : JObj) (hp : parse buf = none) :
    parseTemplateOutput parse buf input = (false, input) := by
  unfold parseTemplateOutput
  rw [hp]

theorem parseTemplateOutput_some (parse : String → Option JObj) (buf : String)
    (input : JObj) (r : JObj) (hp : parse buf = some r) :
    parseTemplateOutput parse buf input = (true, copyAll [] r) := by
  unfold parseTemplateOutput
  rw [hp]

/-- An operation carrying only a template (source string `tstr`). -/
def templateOnlyOp (tstr : String) (stop : Bool) : OperationExec :=
  ⟨[], [], tstr, [], [], [], stop⟩

/-- C6: when an Operation's template executes, failure of the output to
parse as a JSON object leaves the body map completely unchanged (and the
run reports nothing applied), while a successful parse replaces the body
map's previous contents entirely with the template output, recording all
resulting top-level keys in the applied diff. -/
theorem c6_template_replacement (parse : String → Option JObj)
    (tmpl : TemplateExec) (input : JObj) :
    (∀ e, tmpl input = .error e → ExecuteTemplate parse tmpl input = (false, input)) ∧
    (∀ buf, tmpl input = .ok buf → parse buf = none →
      ExecuteTemplate parse tmpl input = (false, input)) ∧
    (∀ buf r, tmpl input = .ok buf → parse buf = some r → NodupKeys r →
      ExecuteTemplate parse tmpl input = (true, r)) ∧
    (∀ (headers : List (String × String)) (tstr : String) (stop : Bool) (buf : String),
      (tstr == "" : Bool) = false → tmpl input = .ok buf → parse buf = none →
      processOperations parse input headers [templateOnlyOp tstr stop] [some tmpl] =
        ⟨input, [], false⟩) ∧
    (∀ (headers : List (String × String)) (tstr : String) (stop : Bool)
      (buf : String) (r : JObj),
      (tstr == "" : Bool) = false → tmpl input = .ok buf → parse buf = some r →
      NodupKeys r →
      processOperations parse input headers [templateOnlyOp tstr stop] [some tmpl] =
        ⟨r, r, true⟩) := by
  refine ⟨?_, ?_, ?_, ?_, ?_⟩
  · intro e he
    exact ExecuteTemplate_error parse tmpl input e he
  · intro buf he hp
    rw [ExecuteTemplate_ok parse tmpl input buf he]
    exact parseTemplateOutput_none parse buf input hp
  · intro buf r he hp hn
    rw [ExecuteTemplate_ok parse tmpl input buf he,
      parseTemplateOutput_some parse buf input r hp, copyAll_nil r hn]
  · intro headers tstr stop buf hstr he hp
    have hts : templateStep parse (templateOnlyOp tstr stop).Template (some tmpl) input =
        (false, input) := by
      show templateStep parse tstr (some tmpl) input = (false, input)
      unfold templateStep
      rw [if_neg (by simp [hstr])]
      rw [show (match some tmpl with
          | some t => ExecuteTemplate parse t input
          | none => ((false : Bool), input)) = ExecuteTemplate parse tmpl input from rfl,
        ExecuteTemplate_ok parse tmpl input buf he]
      exact parseTemplateOutput_none parse buf input hp
    have hrun : runOp parse ⟨input, [], false⟩ (templateOnlyOp tstr stop) (some tmpl) =
        ⟨input, [], false⟩ := by
      unfold runOp
      rw [hts]
      rfl
    show goOps parse (toStringMap input) headers ⟨input, [], false⟩
      [templateOnlyOp tstr stop] [some tmpl] = ⟨input, [], false⟩
    rw [goOps_cons,
      if_pos (show (matchCond (toStringMap input) (templateOnlyOp tstr stop).MatchBody &&
        matchCond headers (templateOnlyOp tstr stop).MatchHeaders) = true from rfl),
      show goOps parse (toStringMap input) headers
        (runOp parse ⟨input, [], false⟩ (templateOnlyOp tstr stop) (some tmpl)) [] [] =
        runOp parse ⟨input, [], false⟩ (templateOnlyOp tstr stop) (some tmpl) from rfl,
      ite_self, hrun]
  · intro headers tstr stop buf r hstr he hp hn
    have hts : templateStep parse (templateOnlyOp tstr stop).Template (some tmpl) input =
        (true, r) := by
      show templateStep parse tstr (some tmpl) input = (true, r)
      unfold templateStep
      rw [if_neg (by simp [hstr])]
      rw [show (match some tmpl with
          | some t => ExecuteTemplate parse t input
          | none => ((false : Bool), input)) = ExecuteTemplate parse tmpl input from rfl,
        ExecuteTemplate_ok parse tmpl input buf he,
        parseTemplateOutput_some parse buf input r hp, copyAll_nil r hn]
    have hrun : runOp parse ⟨input, [], false⟩ (templateOnlyOp tstr stop) (some tmpl) =
        ⟨r, r, true⟩ := by
      unfold runOp
      rw [hts]
      show (⟨(deletePhase (templateOnlyOp tstr stop) (mergePhase (templateOnlyOp tstr stop)
          (defaultPhase (templateOnlyOp tstr stop) (r, copyAll [] r, copyAll [] r)))).1,
        (deletePhase (templateOnlyOp tstr stop) (mergePhase (templateOnlyOp tstr stop)
          (defaultPhase (templateOnlyOp tstr stop) (r, copyAll [] r, copyAll [] r)))).2.2,
        (false || true) || !(deletePhase (templateOnlyOp tstr stop)
          (mergePhase (templateOnlyOp tstr stop) (defaultPhase (templateOnlyOp tstr stop)
            (r, copyAll [] r, copyAll [] r)))).2.1.isEmpty⟩ : OpState) = ⟨r, r, true⟩
      rw [copyAll_nil r hn]
      rfl
    show goOps parse (toStringMap input) headers ⟨input, [], false⟩
      [templateOnlyOp tstr stop] [some tmpl] = ⟨r, r, true⟩
    rw [goOps_cons,
      if_pos (show (matchCond (toStringMap input) (templateOnlyOp tstr stop).MatchBody &&
        matchCond headers (templateOnlyOp tstr stop).MatchHeaders) = true from rfl),
      show goOps parse (toStringMap input) headers
        (runOp parse ⟨input, [], false⟩ (templateOnlyOp tstr stop) (some tmpl)) [] [] =
        runOp parse ⟨input, [], false⟩ (templateOnlyOp tstr stop) (some tmpl) from rfl,
      ite_self, hrun]

/-- A template execution producing the fixed output text `"out"`. -/
def tmplOut : TemplateExec := fun _ => .ok "out"

/-- A parse function decoding every text to the object `{k: 5}`. -/
def parseK5 : String → Option JObj := fun _ => some [("k", .num 5)]

/-- Witness for C6: a successful template run replaces the body `{old: 1}`
with the parsed output `{k: 5}` and records its key. -/
theorem c6_template_replacement_witness :
    processOperations parseK5 [("old", .num 1)] [] [templateOnlyOp "T" false]
      [some tmplOut] = ⟨[("k", .num 5)], [("k", .num 5)], true⟩ :=
  (c6_template_replacement parseK5 tmplOut [("old", .num 1)]).2.2.2.2
    [] "T" false "out" [("k", .num 5)] rfl rfl rfl (by simp [NodupKeys])

/-! ## Claim C10 -/

/-- C10: in any run of the operation interpreter in which no `merge` value,
no `default` value, and no template-produced value equals the string
`"<deleted>"`, every key whose entry in the returned applied-diff map is the
sentinel `"<deleted>"` is absent from the final body map: the sentinel is
unambiguous and records only keys that truly ended up removed. -/
theorem c10_sentinel_faithful (parse : String → Option JObj) (data : JObj)
    (headers : List (String × String)) (operations : List OperationExec)
    (templates : List (Option TemplateExec))
    (hops : ∀ op ∈ operations, noSentinelVals op.Default ∧ noSentinelVals op.Merge)
    (htm : ∀ t, some t ∈ templates → ∀ d buf r, t d = .ok buf →
      parse buf = some r → noSentinelVals r) :
    ∀ k, getK (processOperations parse data headers operations templates).appliedValues k =
        some (.str "<deleted>") →
      getK (processOperations parse data headers operations templates).data k = none := by
  intro k hk
  exact goOps_sentinel parse (toStringMap data) headers operations templates
    ⟨data, [], false⟩ hops htm (fun k' hk' => by cases hk') k hk

/-- The first operation of the C10 witness: merge `a := 1`. -/
def opMergeA : OperationExec := ⟨[], [], "", [("a", .num 1)], [], [], false⟩

/-- Witness for C10: after merging `a` and then deleting it, the diff maps
`a` to the sentinel and the theorem yields that `a` is gone from the body. -/
theorem c10_sentinel_faithful_witness :
    getK (processOperations noParse [] [] [opMergeA, opDeleteA] [none, none]).data "a" =
      none := by
  refine c10_sentinel_faithful noParse [] [] [opMergeA, opDeleteA] [none, none]
    ?_ ?_ "a" rfl
  · intro op hop
    rcases List.mem_cons.mp hop with rfl | hop
    · refine ⟨(fun k v hv => nomatch hv), fun k v hv => ?_⟩
      rcases List.mem_singleton.mp hv with h
      injection h with h1 h2
      subst h2
      intro hc
      cases hc
    · rcases List.mem_singleton.mp hop with rfl
      exact ⟨(fun k v hv => nomatch hv), (fun k v hv => nomatch hv)⟩
  · intro t ht
    simp at ht

/-! ## Claim C7 -/

/-- C7: for every Pattern (a validated, compiled pattern list, whose
compiled forms are case-insensitive because `Validate` prepends `(?i)`) and
every pair of strings that differ only in letter case, `Matches` returns
the same result. -/
theorem c7_matches_case_insensitive (p : PatternField) (s₁ s₂ : String)
    (h : s₁.data.map Char.toLower = s₂.data.map Char.toLower) :
    p.Matches s₁ = p.Matches s₂ := by
  unfold PatternField.Matches
  have hgen : ∀ l : List Regex,
      (l.any fun re => matchString re s₁.data) =
        (l.any fun re => matchString re s₂.data) := by
    intro l
    induction l with
    | nil => rfl
    | cons r rest ih => simp [List.any_cons, ih, matchString_caseFold _ _ h r]
  exact hgen p.Compiled

/-- Witness for C7 at a concrete pattern and a concrete case-variant pair. -/
theorem c7_matches_case_insensitive_witness :
    "aBc".data.map Char.toLower = "AbC".data.map Char.toLower ∧
    (litPattern 'b').Matches "aBc" = (litPattern 'b').Matches "AbC" :=
  ⟨by decide, c7_matches_case_insensitive (litPattern 'b') "aBc" "AbC" (by decide)⟩

/-! ## Request pipeline (proxy/handler.go, ModifyRequest) -/

/-- The request state threaded through the rule loop: the (possibly
rewritten) URL path, the parsed JSON body when one was present, and the
last rule matched so far (stored in the request context for the response
pipeline). -/
structure ReqResult where
  path : String
  data : Option JObj
  lastMatched : Option Rule

/-- The body of one matched-rule iteration of `ModifyRequest`'s loop
(handler.go lines 288-316): record the rule as last matched, rewrite the
path when `TargetPath` is set, and, when a JSON body exists and the rule
has `on_request` operations, run the interpreter on the shared body. -/
def ruleStep (parse : String → Option JObj) (headers : List (String × String))
    (st : ReqResult) (rule : Rule) : ReqResult :=
  match st.data with
  | none =>
    ⟨if rule.TargetPath == "" then st.path else rule.TargetPath, none, some rule⟩
  | some d =>
    if rule.OnRequest.isEmpty then
      ⟨if rule.TargetPath == "" then st.path else rule.TargetPath, some d, some rule⟩
    else
      ⟨if rule.TargetPath == "" then st.path else rule.TargetPath,
        some (ProcessRequest parse d headers rule).data, some rule⟩

/-- The sequential rule loop of `ModifyRequest` (handler.go lines 269-333):
each rule is matched against the request method and the *current* URL path
(including rewrites applied by earlier matched rules) and, if it matches,
applied before moving to the next rule. -/
def modifyRequestRules (parse : String → Option JObj) (method : String)
    (headers : List (String × String)) : ReqResult → List Rule → ReqResult
  | st, [] => st
  | st, rule :: rest =>
    if rule.Methods.Matches method && rule.Paths.Matches st.path then
      modifyRequestRules parse method headers (ruleStep parse headers st rule) rest
    else
      modifyRequestRules parse method headers st rest

/-- `ModifyRequest` (handler.go lines 210-381), restricted to its
rule-dispatch core: the byte-level body read, logging, and re-serialization
around the loop are I/O plumbing.  `body = none` models a request whose
body is absent or fails to parse as JSON (`hasJSONBody = false`). -/
def ModifyRequest (parse : String → Option JObj) (method path : String)
    (headers : List (String × String)) (body : Option JObj)
    (rules : List Rule) : ReqResult :=
  modifyRequestRules parse method headers ⟨path, body, none⟩ rules

/-! ## Buffered response pipeline (proxy/handler.go, ModifyResponse) -/

/-- `strings.Contains`. -/
def containsSub (s sub : String) : Bool :=
  s.data.tails.any fun t => sub.data.isPrefixOf t

/-- `ModifyResponse` (handler.go lines 384-500), as a function from the
buffered body to the body handed back to the client.  In order: no rule in
the request context, or an empty `on_response` list, returns the body
unchanged; a `text/event-stream` content type is routed to the streaming
handler (the buffered pipeline itself leaves the body to it untouched); a
non-JSON content type or a body that fails to parse is restored unchanged;
otherwise the interpreter runs the context rule's `on_response` operations
with the response headers and the re-serialized body replaces the
original.  `serialize` stands for the external `json.Marshal` (total on
decoded values). -/
def ModifyResponse (parse : String → Option JObj) (serialize : JObj → String)
    (ctxRule : Option Rule) (contentType : String)
    (respHeaders : List (String × String)) (body : String) : String :=
  match ctxRule with
  | none => body
  | some rule =>
    if rule.OnResponse.isEmpty then body
    else if containsSub contentType "text/event-stream" then body
    else if !containsSub contentType "application/json" then body
    else
      match parse body with
      | none => body
      | some data => serialize (ProcessResponse parse data respHeaders rule).data

/-! ## Streaming response pipeline (proxy/handler.go, ModifyStreamingResponse) -/

/-- One iteration of the streaming worker's scan loop (handler.go lines
529-609): empty line → lone newline; `data: ` line carrying exactly
`[DONE]` → unchanged; unparseable payload → unchanged; parsed payload →
the rule's `on_response` operations run against it with the response
headers, and the serialization is written back with the `data: ` prefix
re-emitted when it was present.  (`json.Marshal` on a decoded map cannot
fail, so `serialize` is total and the marshal-error fallback is dead.) -/
def processStreamLine (parse : String → Option JObj) (serialize : JObj → String)
    (headers : List (String × String)) (rule : Rule) (line : String) : String :=
  if line == "" then "\n"
  else if "data: ".data.isPrefixOf line.data then
    if line.drop 6 == "[DONE]" then line ++ "\n"
    else
      match parse (line.drop 6) with
      | none => line ++ "\n"
      | some data =>
        "data: " ++ serialize (ProcessResponse parse data headers rule).data ++ "\n"
  else
    match parse line with
    | none => line ++ "\n"
    | some data => serialize (ProcessResponse parse data headers rule).data ++ "\n"

/-- `ModifyStreamingResponse` (handler.go lines 503-618): the worker writes
the transformed lines to the pipe strictly in the order they were read. -/
def ModifyStreamingResponse (parse : String → Option JObj)
    (serialize : JObj → String) (headers : List (String × String)) (rule : Rule)
    (upstreamLines : List String) : String :=
  String.join (upstreamLines.map (processStreamLine parse serialize headers rule))

theorem modifyRequestRules_cons (parse : String → Option JObj) (method : String)
    (headers : List (String × String)) (st : ReqResult) (rule : Rule)
    (rest : List Rule) :
    modifyRequestRules parse method headers st (rule :: rest) =
      if rule.Methods.Matches method && rule.Paths.Matches st.path then
        modifyRequestRules parse method headers (ruleStep parse headers st rule) rest
      else modifyRequestRules parse method headers st rest := rfl

/-! ## Claim C3 -/

/-- Second operation of the C3 counterexample: merge `m1 := 2`. -/
def opMergeM1 : OperationExec := ⟨[], [], "", [("m1", .num 2)], [], [], false⟩

/-- First rule of the C3 counterexample: matches paths containing `a`,
rewrites the outbound path to `/b` (its response operation list is
non-empty only to mirror a realistic rule). -/
def ruleRewriteA : Rule := ⟨anyPattern, litPattern 'a', "/b", [], [opMergeA], [], []⟩

/-- Second rule of the C3 counterexample: matches paths containing `b` —
which the original request path does not — and merges `m1`. -/
def ruleMatchB : Rule := ⟨anyPattern, litPattern 'b', "", [opMergeM1], [], [none], []⟩

/-- C3 as frozen is false on the code: `ModifyRequest` evaluates each rule's
path pattern against the request's *current* URL path, which earlier matched
rules may already have rewritten via `target_path`.  Here the second rule's
pattern does not match the original path `/a`, yet after the first rule
rewrites the path to `/b` the second rule runs and mutates the body. -/
theorem c3_counterexample :
    ruleMatchB.Paths.Matches "/a" = false ∧
    (ModifyRequest noParse "POST" "/a" [] (some []) [ruleRewriteA, ruleMatchB]).data =
      some [("m1", .num 2)] :=
  ⟨rfl, rfl⟩

/-- C3 (amended): each rule is matched against the request method and the
request's current URL path, where earlier matched rules' `target_path`
rewrites are already applied; a rule whose method or current-path match
fails contributes no mutation at all (no body change, no path rewrite, no
context-rule change), a matched rule overwrites the path exactly when its
`target_path` is set — so with several matching rules the last one's
rewrite is forwarded — and mutates the body exactly when a JSON body exists
and its `on_request` list is non-empty. -/
theorem c3_rule_matching_frame (parse : String → Option JObj) (method : String)
    (headers : List (String × String)) (st : ReqResult) (rule : Rule)
    (rest : List Rule) :
    -- a non-matching rule (w.r.t. the current path) contributes nothing
    ((rule.Methods.Matches method && rule.Paths.Matches st.path) = false →
      modifyRequestRules parse method headers st (rule :: rest) =
        modifyRequestRules parse method headers st rest) ∧
    -- a matching rule is applied before the remaining rules are considered
    ((rule.Methods.Matches method && rule.Paths.Matches st.path) = true →
      modifyRequestRules parse method headers st (rule :: rest) =
        modifyRequestRules parse method headers (ruleStep parse headers st rule) rest) ∧
    -- a matched rule rewrites the path exactly when target_path is set
    ((rule.TargetPath == "" : Bool) = false →
      (ruleStep parse headers st rule).path = rule.TargetPath) ∧
    ((rule.TargetPath == "" : Bool) = true →
      (ruleStep parse headers st rule).path = st.path) ∧
    -- a matched rule becomes the context rule for the response pipeline
    ((ruleStep parse headers st rule).lastMatched = some rule) ∧
    -- body mutation happens exactly for a JSON body and a non-empty on_request
    (st.data = none → (ruleStep parse headers st rule).data = none) ∧
    (∀ d, st.data = some d → rule.OnRequest.isEmpty = true →
      (ruleStep parse headers st rule).data = some d) ∧
    (∀ d, st.data = some d → rule.OnRequest.isEmpty = false →
      (ruleStep parse headers st rule).data =
        some (ProcessRequest parse d headers rule).data) ∧
    -- when the last rule matches and sets target_path, it decides the path
    ((rule.Methods.Matches method && rule.Paths.Matches st.path) = true →
      (rule.TargetPath == "" : Bool) = false →
      (modifyRequestRules parse method headers st [rule]).path = rule.TargetPath) := by
  refine ⟨?_, ?_, ?_, ?_, ?_, ?_, ?_, ?_, ?_⟩
  · intro h
    rw [modifyRequestRules_cons, if_neg (by simp [h])]
  · intro h
    rw [modifyRequestRules_cons, if_pos h]
  · intro h
    cases hd : st.data with
    | none => simp [ruleStep, hd, h]
    | some d =>
      by_cases hOR : rule.OnRequest.isEmpty <;> simp [ruleStep, hd, h, hOR]
  · intro h
    cases hd : st.data with
    | none => simp [ruleStep, hd, h]
    | some d =>
      by_cases hOR : rule.OnRequest.isEmpty <;> simp [ruleStep, hd, h, hOR]
  · cases hd : st.data with
    | none => simp [ruleStep, hd]
    | some d =>
      by_cases hOR : rule.OnRequest.isEmpty <;> simp [ruleStep, hd, hOR]
  · intro h
    simp [ruleStep, h]
  · intro d hd hOR
    simp [ruleStep, hd, hOR]
  · intro d hd hOR
    simp [ruleStep, hd, hOR]
  · intro hm hp
    rw [modifyRequestRules_cons, if_pos hm]
    show (ruleStep parse headers st rule).path = rule.TargetPath
    cases hd : st.data with
    | none => simp [ruleStep, hd, hp]
    | some d =>
      by_cases hOR : rule.OnRequest.isEmpty <;> simp [ruleStep, hd, hp, hOR]

/-- Witness for C3 (amended) at concrete inputs: a rule whose path pattern
fails against the current path is skipped outright, and a matching rule's
`target_path` decides the forwarded path. -/
theorem c3_rule_matching_frame_witness :
    modifyRequestRules noParse "GET" [] ⟨"/a", none, none⟩ [ruleMatchB] =
      modifyRequestRules noParse "GET" [] ⟨"/a", none, none⟩ [] ∧
    (modifyRequestRules noParse "GET" [] ⟨"/a", none, none⟩ [ruleRewriteA]).path = "/b" :=
  ⟨(c3_rule_matching_frame noParse "GET" [] ⟨"/a", none, none⟩ ruleMatchB []).1 rfl,
   (c3_rule_matching_frame noParse "GET" [] ⟨"/a", none, none⟩ ruleRewriteA
      []).2.2.2.2.2.2.2.2 rfl rfl⟩

/-! ## Claim C2 -/

/-- C2: the buffered response pipeline applies the `on_response` operations
of exactly the last rule that matched during request processing (the rule
recovered from the request context); when no rule matched, or the context
rule's `on_response` list is empty, or the body fails to parse, the
response body is returned unchanged.  Earlier matched rules never
participate: `ModifyRequest` stores only the last matched rule and
`ModifyResponse` consults nothing else. -/
theorem c2_response_uses_last_matched_rule (parse : String → Option JObj)
    (serialize : JObj → String) (method path : String)
    (headers : List (String × String)) (body : Option JObj) (rules : List Rule)
    (ct : String) (respHeaders : List (String × String)) (respBody : String) :
    ((ModifyRequest parse method path headers body rules).lastMatched = none →
      ModifyResponse parse serialize
        (ModifyRequest parse method path headers body rules).lastMatched
        ct respHeaders respBody = respBody) ∧
    (∀ rule, (ModifyRequest parse method path headers body rules).lastMatched = some rule →
      rule.OnResponse = [] →
      ModifyResponse parse serialize
        (ModifyRequest parse method path headers body rules).lastMatched
        ct respHeaders respBody = respBody) ∧
    (∀ rule data, (ModifyRequest parse method path headers body rules).lastMatched = some rule →
      rule.OnResponse.isEmpty = false →
      containsSub ct "text/event-stream" = false →
      containsSub ct "application/json" = true →
      parse respBody = some data →
      ModifyResponse parse serialize
        (ModifyRequest parse method path headers body rules).lastMatched
        ct respHeaders respBody =
        serialize (ProcessResponse parse data respHeaders rule).data) ∧
    (∀ rule, (ModifyRequest parse method path headers body rules).lastMatched = some rule →
      rule.OnResponse.isEmpty = false →
      containsSub ct "text/event-stream" = false →
      containsSub ct "application/json" = true →
      parse respBody = none →
      ModifyResponse parse serialize
        (ModifyRequest parse method path headers body rules).lastMatched
        ct respHeaders respBody = respBody) := by
  refine ⟨?_, ?_, ?_, ?_⟩
  · intro h
    rw [h]
    rfl
  · intro rule hlm hor
    rw [hlm]
    simp [ModifyResponse, hor]
  · intro rule data hlm hor hsse hjson hp
    rw [hlm]
    simp [ModifyResponse, hor, hsse, hjson, hp]
  · intro rule hlm hor hsse hjson hp
    rw [hlm]
    simp [ModifyResponse, hor, hsse, hjson, hp]

/-- Witness for C2: with no rules at all, the request context holds no rule
and the response body comes back untouched. -/
theorem c2_response_uses_last_matched_rule_witness :
    ModifyResponse noParse (fun _ => "") ((ModifyRequest noParse "GET" "/p" [] none
      []).lastMatched) "application/json" [] "x" = "x" :=
  (c2_response_uses_last_matched_rule noParse (fun _ => "") "GET" "/p" [] none []
    "application/json" [] "x").1 rfl

/-! ## Claim C4 -/

/-- C4: the streaming transformer handles each upstream line as follows: an
empty line is written as a single newline; a `data: ` line whose payload is
exactly `[DONE]` is written unchanged; a line whose extracted payload fails
to parse as a JSON object is written unchanged; a parsed payload is replaced
by the serialized result of running the matched rule's `on_response`
operations against it with the response headers as the matching headers,
re-emitting the `data: ` prefix when it was present; and the output is the
concatenation of the per-line outputs in exactly the input order. -/
theorem c4_streaming_lines (parse : String → Option JObj)
    (serialize : JObj → String) (headers : List (String × String)) (rule : Rule) :
    (processStreamLine parse serialize headers rule "" = "\n") ∧
    (∀ line, (line == "" : Bool) = false → "data: ".data.isPrefixOf line.data = true →
      (line.drop 6 == "[DONE]" : Bool) = true →
      processStreamLine parse serialize headers rule line = line ++ "\n") ∧
    (∀ line, (line == "" : Bool) = false → "data: ".data.isPrefixOf line.data = true →
      (line.drop 6 == "[DONE]" : Bool) = false → parse (line.drop 6) = none →
      processStreamLine parse serialize headers rule line = line ++ "\n") ∧
    (∀ line data, (line == "" : Bool) = false → "data: ".data.isPrefixOf line.data = true →
      (line.drop 6 == "[DONE]" : Bool) = false → parse (line.drop 6) = some data →
      processStreamLine parse serialize headers rule line =
        "data: " ++ serialize (ProcessResponse parse data headers rule).data ++ "\n") ∧
    (∀ line, (line == "" : Bool) = false → "data: ".data.isPrefixOf line.data = false →
      parse line = none →
      processStreamLine parse serialize headers rule line = line ++ "\n") ∧
    (∀ line data, (line == "" : Bool) = false → "data: ".data.isPrefixOf line.data = false →
      parse line = some data →
      processStreamLine parse serialize headers rule line =
        serialize (ProcessResponse parse data headers rule).data ++ "\n") ∧
    (∀ upstreamLines, ModifyStreamingResponse parse serialize headers rule upstreamLines =
      String.join (upstreamLines.map (processStreamLine parse serialize headers rule))) := by
  refine ⟨rfl, ?_, ?_, ?_, ?_, ?_, fun _ => rfl⟩
  · intro line h1 h2 h3
    simp [processStreamLine, h1, h2, h3]
  · intro line h1 h2 h3 h4
    simp [processStreamLine, h1, h2, h3, h4]
  · intro line data h1 h2 h3 h4
    simp [processStreamLine, h1, h2, h3, h4]
  · intro line h1 h2 h3
    simp [processStreamLine, h1, h2, h3]
  · intro line data h1 h2 h3
    simp [processStreamLine, h1, h2, h3]

/-- Witness for C4: the `[DONE]` control frame passes through unchanged. -/
theorem c4_streaming_lines_witness :
    processStreamLine noParse (fun _ => "") [] ruleMatchB "data: [DONE]" =
      "data: [DONE]" ++ "\n" :=
  (c4_streaming_lines noParse (fun _ => "") [] ruleMatchB).2.1 "data: [DONE]"
    rfl rfl rfl

/-! ## Configuration validation (config/validation.go, `Validate`) -/

/-- An operation as the validator sees it: the raw condition maps hold the
pattern source strings (`PatternField.Patterns`); `Merge` and `Default` are
the decoded YAML maps.  Mirrors the config-side `Operation` struct. -/
structure Operation where
  MatchBody : List (String × List String)
  MatchHeaders : List (String × List String)
  Template : String
  Merge : JObj
  Default : JObj
  Delete : List String
  Stop : Bool

/-- A rule as the validator sees it: `Methods`/`Paths` are pattern source
lists. -/
structure RuleSrc where
  Methods : List String
  Paths : List String
  TargetPath : String
  OnRequest : List Operation
  OnResponse : List Operation

/-- One proxy block of the config file. -/
structure ProxySrc where
  Listen : String
  Target : String
  SSLCert : String
  SSLKey : String
  Rules : List RuleSrc

/-- The whole decoded config: per-proxy rules plus the shared global rules
used when a proxy declares none. -/
structure Config where
  Proxies : List ProxySrc
  Rules : List RuleSrc

/-- First error of a list of results (the Go loops return on the first
failing element). -/
def firstSome : List (Option String) → Option String
  | [] => none
  | none :: rest => firstSome rest
  | some e :: _ => some e

/-- `PatternField.Validate` (README config.go lines 202-214): every pattern
must compile with the `(?i)` flag prepended.  `compile` stands for the
external `regexp.Compile`, as the predicate "this source compiles". -/
def patternFieldValidate (compile : String → Bool) : List String → Option String
  | [] => none
  | p :: rest =>
    if compile ("(?i)" ++ p) then patternFieldValidate compile rest
    else some ("invalid regex pattern " ++ p)

/-- `validateOperation` (validation.go lines 92-121): validates the
`match_body` and `match_headers` patterns, accepts a template as a
standalone action, and otherwise requires at least one of merge, default
or delete to be non-empty.  `none` is Go's `nil` error. -/
def validateOperation (compile : String → Bool) (op : Operation) : Option String :=
  match firstSome (op.MatchBody.map fun kv => patternFieldValidate compile kv.2) with
  | some e => some e
  | none =>
    match firstSome (op.MatchHeaders.map fun kv => patternFieldValidate compile kv.2) with
    | some e => some e
    | none =>
      if op.Template == "" then
        if op.Merge.isEmpty && op.Default.isEmpty && op.Delete.isEmpty then
          some "must have at least one action (template, merge, default, or delete)"
        else none
      else none

/-- `validateRule` (validation.go lines 52-90). -/
def validateRule (compile : String → Bool) (rule : RuleSrc) : Option String :=
  if rule.Methods.isEmpty then some "methods required"
  else if rule.Paths.isEmpty then some "paths required"
  else if rule.OnRequest.isEmpty && rule.OnResponse.isEmpty then
    some "at least one operation required (on_request or on_response)"
  else if !(rule.TargetPath == "") && !("/".data.isPrefixOf rule.TargetPath.data) then
    some "target_path must be absolute"
  else
    match patternFieldValidate compile rule.Methods with
    | some e => some e
    | none =>
      match patternFieldValidate compile rule.Paths with
      | some e => some e
      | none =>
        match firstSome (rule.OnRequest.map (validateOperation compile)) with
        | some e => some e
        | none => firstSome (rule.OnResponse.map (validateOperation compile))

/-- The per-proxy loop of `Validate` (src/unnamed/part_004 lines 16-47):
each proxy needs a listen address, a parseable target, matched SSL
settings and a listener not seen before; its rules (or the global rules
when it has none) are validated in order.  `urlOk` stands for the external
`url.Parse` succeeding. -/
def validateProxies (compile : String → Bool) (urlOk : String → Bool)
    (globalRules : List RuleSrc) : List String → List ProxySrc → Option String
  | _, [] => none
  | seen, proxy :: rest =>
    if proxy.Listen == "" then some "listen is required"
    else if proxy.Target == "" then some "target is required"
    else if !(urlOk proxy.Target) then some "target URL is invalid"
    else if (!(proxy.SSLCert == "") && proxy.SSLKey == "") ||
        (proxy.SSLCert == "" && !(proxy.SSLKey == "")) then
      some "both ssl_cert and ssl_key must be provided together"
    else if seen.contains proxy.Listen then
      some "proxy listeners must be unique"
    else
      match firstSome
          ((if proxy.Rules.isEmpty then globalRules else proxy.Rules).map
            (validateRule compile)) with
      | some e => some e
      | none => validateProxies compile urlOk globalRules (proxy.Listen :: seen) rest

/-- `Validate` (src/unnamed/part_004 lines 10-50). -/
def Validate (compile : String → Bool) (urlOk : String → Bool)
    (config : Config) : Option String :=
  if config.Proxies.isEmpty then some "proxy configuration is required"
  else validateProxies compile urlOk config.Rules [] config.Proxies

/-- C9 counterexample ingredients: an operation whose `merge` map carries
the empty key bound to a JSON null. -/
def opBadMerge : Operation := ⟨[], [], "", [("", JValue.null)], [], [], false⟩

def ruleBadMerge : RuleSrc := ⟨[".*"], [".*"], "", [opBadMerge], []⟩

def configBadMerge : Config :=
  ⟨[⟨"127.0.0.1:8080", "http://upstream", "", "", [ruleBadMerge]⟩], []⟩

/-- C9 as frozen is false on the code: no validator ever inspects the keys
or values of `merge`/`default`.  A config whose only operation merges a
JSON null under the empty key passes `Validate` in full (with every
pattern compiling and the target URL parsing, both external facts supplied
as total predicates). -/
theorem c9_counterexample :
    getK opBadMerge.Merge "" = some JValue.null ∧
    Validate (fun _ => true) (fun _ => true) configBadMerge = none :=
  ⟨rfl, rfl⟩

/-- C9 (amended): `validateOperation` checks only the `match_body` and
`match_headers` pattern sources and the presence of at least one action;
the contents of `merge` and `default` are never inspected — the result is
invariant under swapping those maps for any maps of the same emptiness —
and success is exactly: all condition patterns compile, and either a
template is present or one of merge/default/delete is non-empty. -/
theorem c9_values_never_validated (compile : String → Bool) (op : Operation)
    (m d : JObj) (hm : m.isEmpty = op.Merge.isEmpty)
    (hd : d.isEmpty = op.Default.isEmpty) :
    validateOperation compile { op with Merge := m, Default := d } =
      validateOperation compile op ∧
    (validateOperation compile op = none ↔
      (firstSome (op.MatchBody.map fun kv => patternFieldValidate compile kv.2) = none ∧
       firstSome (op.MatchHeaders.map fun kv => patternFieldValidate compile kv.2) = none ∧
       ((op.Template == "") = false ∨
        (op.Merge.isEmpty && op.Default.isEmpty && op.Delete.isEmpty) = false))) := by
  constructor
  · show validateOperation compile ⟨op.MatchBody, op.MatchHeaders, op.Template,
      m, d, op.Delete, op.Stop⟩ = validateOperation compile op
    unfold validateOperation
    cases firstSome (op.MatchBody.map fun kv => patternFieldValidate compile kv.2) with
    | some e => rfl
    | none =>
      cases firstSome (op.MatchHeaders.map fun kv => patternFieldValidate compile kv.2) with
      | some e => rfl
      | none =>
        show (if op.Template == "" then
            if m.isEmpty && d.isEmpty && op.Delete.isEmpty then _ else _
          else _) = _
        rw [hm, hd]
  · unfold validateOperation
    cases firstSome (op.MatchBody.map fun kv => patternFieldValidate compile kv.2) with
    | some e =>
      simp
    | none =>
      cases firstSome (op.MatchHeaders.map fun kv => patternFieldValidate compile kv.2) with
      | some e => simp
      | none =>
        cases hT : (op.Template == "") with
        | false => simp
        | true =>
          cases hA : (op.Merge.isEmpty && op.Default.isEmpty && op.Delete.isEmpty) with
          | false => simp
          | true => simp

/-- Witness for C9 (amended) at `opBadMerge`: swapping its merge map for
another non-empty map leaves validation unchanged, and its success
characterization holds. -/
theorem c9_values_never_validated_witness :
    validateOperation (fun _ => true)
      { opBadMerge with Merge := [("k", JValue.num 1)], Default := [] } =
      validateOperation (fun _ => true) opBadMerge ∧
    (validateOperation (fun _ => true) opBadMerge = none ↔
      (firstSome (opBadMerge.MatchBody.map fun kv =>
          patternFieldValidate (fun _ => true) kv.2) = none ∧
       firstSome (opBadMerge.MatchHeaders.map fun kv =>
          patternFieldValidate (fun _ => true) kv.2) = none ∧
       ((opBadMerge.Template == "") = false ∨
        (opBadMerge.Merge.isEmpty && opBadMerge.Default.isEmpty &&
          opBadMerge.Delete.isEmpty) = false))) :=
  c9_values_never_validated (fun _ => true) opBadMerge [("k", JValue.num 1)] []
    rfl rfl

/-! ## Include expansion (README config.go, `expandIncludes` / `loadIncludeNode`) -/

/-- A parsed YAML node (`yaml.Node`): scalar, mapping (keys are scalar
strings in this config format) or sequence.  A document is represented by
its single root node, which is how `loadIncludeNode` unwraps it. -/
inductive Yaml where
  | scalar (v : String)
  | mapping (pairs : List (String × Yaml))
  | sequence (items : List Yaml)

/-- Result of a fuel-indexed run: `outOfFuel` means the call tree exceeded
the given depth budget, `failure` a genuine load/parse error. -/
inductive ExpandRes (α : Type) where
  | outOfFuel
  | failure
  | ok (v : α)

def ExpandRes.bind : ExpandRes α → (α → ExpandRes β) → ExpandRes β
  | .outOfFuel, _ => .outOfFuel
  | .failure, _ => .failure
  | .ok v, f => f v

/-- `isIncludeNode` (README lines 439-443): a mapping with exactly one
pair whose key is `include`; returns the path node. -/
def isIncludeNode : Yaml → Option Yaml
  | .mapping [(k, v)] => if k == "include" then some v else none
  | _ => none

/-- `ResolvePath`: an absolute path is kept, a relative one is joined to
the base directory. -/
def resolvePath (p baseDir : String) : String :=
  if "/".data.isPrefixOf p.data then p else baseDir ++ "/" ++ p

/-- `filepath.Dir`, for the clean paths this model uses: everything before
the last slash, `/` for a root-level file, `.` when there is no slash. -/
def dirOf (p : String) : String :=
  match p.data.reverse.dropWhile (fun c => !(c == '/')) with
  | [] => "."
  | [_] => "/"
  | _ :: rest => String.mk rest.reverse

/-- The loader's file system: resolved path → parsed root node.
`os.ReadFile` + `yaml.Unmarshal` become a lookup; a missing path is the
read/parse error. -/
def lookupFile (fs : List (String × Yaml)) (p : String) : Option Yaml :=
  match fs with
  | [] => none
  | (q, node) :: rest => if q == p then some node else lookupFile rest p

mutual

/-- `expandIncludes` (README lines 365-437), fuel-indexed: a mapping that
is exactly `{include: path}` is replaced by the loaded file and
re-expanded; in larger mappings an include-mapping value is loaded and
expanded in place; in sequences an include item is loaded and, when the
loaded node is itself a sequence, spliced.  The source recurses with no
depth bound; here every recursive call costs one unit of fuel, so the
source diverges on an input exactly when this runs out of fuel for every
budget. -/
def expandIncludes (fs : List (String × Yaml)) : Nat → Yaml → String → ExpandRes Yaml
  | 0, _, _ => .outOfFuel
  | Nat.succ fuel, node, baseDir =>
    match node with
    | .scalar v => .ok (.scalar v)
    | .mapping [(k, v)] =>
      if k == "include" then
        (loadIncludeNode fs fuel v baseDir).bind fun included =>
          expandIncludes fs fuel included baseDir
      else
        (expandPairs fs fuel [(k, v)] baseDir).bind fun ps => .ok (.mapping ps)
    | .mapping pairs =>
      (expandPairs fs fuel pairs baseDir).bind fun ps => .ok (.mapping ps)
    | .sequence items =>
      (expandItems fs fuel items baseDir).bind fun xs => .ok (.sequence xs)

/-- The mapping loop of `expandIncludes` (README lines 374-403), for
mappings that are not themselves a single include pair. -/
def expandPairs (fs : List (String × Yaml)) :
    Nat → List (String × Yaml) → String → ExpandRes (List (String × Yaml))
  | 0, _, _ => .outOfFuel
  | Nat.succ _, [], _ => .ok []
  | Nat.succ fuel, (k, v) :: rest, baseDir =>
    match isIncludeNode v with
    | some pathNode =>
      (loadIncludeNode fs fuel pathNode baseDir).bind fun included =>
        (expandIncludes fs fuel included baseDir).bind fun v2 =>
          (expandPairs fs fuel rest baseDir).bind fun ps => .ok ((k, v2) :: ps)
    | none =>
      (expandIncludes fs fuel v baseDir).bind fun v2 =>
        (expandPairs fs fuel rest baseDir).bind fun ps => .ok ((k, v2) :: ps)

/-- The sequence loop of `expandIncludes` (README lines 404-434): an
include item whose loaded node is a sequence is expanded child by child
and spliced; any other loaded node is expanded and kept as one item. -/
def expandItems (fs : List (String × Yaml)) :
    Nat → List Yaml → String → ExpandRes (List Yaml)
  | 0, _, _ => .outOfFuel
  | Nat.succ _, [], _ => .ok []
  | Nat.succ fuel, item :: rest, baseDir =>
    match isIncludeNode item with
    | some pathNode =>
      (loadIncludeNode fs fuel pathNode baseDir).bind fun included =>
        match included with
        | .sequence children =>
          (expandList fs fuel children baseDir).bind fun cs =>
            (expandItems fs fuel rest baseDir).bind fun xs => .ok (cs ++ xs)
        | other =>
          (expandIncludes fs fuel other baseDir).bind fun o2 =>
            (expandItems fs fuel rest baseDir).bind fun xs => .ok (o2 :: xs)
    | none =>
      (expandIncludes fs fuel item baseDir).bind fun i2 =>
        (expandItems fs fuel rest baseDir).bind fun xs => .ok (i2 :: xs)

/-- Expansion of a list of spliced sequence children (README lines
413-419). -/
def expandList (fs : List (String × Yaml)) :
    Nat → List Yaml → String → ExpandRes (List Yaml)
  | 0, _, _ => .outOfFuel
  | Nat.succ _, [], _ => .ok []
  | Nat.succ fuel, x :: rest, baseDir =>
    (expandIncludes fs fuel x baseDir).bind fun x2 =>
      (expandList fs fuel rest baseDir).bind fun xs => .ok (x2 :: xs)

/-- `loadIncludeNode` (README lines 445-478): the path node must be a
scalar; the resolved file is looked up, parsed and recursively expanded
relative to its own directory. -/
def loadIncludeNode (fs : List (String × Yaml)) : Nat → Yaml → String → ExpandRes Yaml
  | 0, _, _ => .outOfFuel
  | Nat.succ fuel, pathNode, baseDir =>
    match pathNode with
    | .scalar p =>
      match lookupFile fs (resolvePath p baseDir) with
      | none => .failure
      | some root => expandIncludes fs fuel root (dirOf (resolvePath p baseDir))
    | _ => .failure

end

/-- The C8 failing input: a root-level file whose whole content is
`include: /a.yml` — it includes itself. -/
def incNode : Yaml := Yaml.mapping [("include", Yaml.scalar "/a.yml")]

def cyclicFs : List (String × Yaml) := [("/a.yml", incNode)]

/-- C8 is false on the code: include expansion has no depth bound, so a
file that includes itself makes the loader recurse forever.  In the fuel
model: for every finite budget, expanding `/a.yml` (whose content is
`include: /a.yml`) exhausts the budget — no budget suffices, which is
exactly divergence of the unbounded source recursion. -/
theorem c8_include_cycle_diverges :
    ∀ fuel, expandIncludes cyclicFs fuel incNode "/" = ExpandRes.outOfFuel := by
  intro fuel
  induction fuel using Nat.strong_induction_on with
  | _ fuel ih =>
    match fuel with
    | 0 => rfl
    | 1 => rfl
    | Nat.succ (Nat.succ g) =>
      have hg : expandIncludes cyclicFs g incNode "/" = ExpandRes.outOfFuel :=
        ih g (by omega)
      have hstep : expandIncludes cyclicFs (g + 2) incNode "/" =
          ExpandRes.bind (expandIncludes cyclicFs g incNode "/")
            (fun included => expandIncludes cyclicFs (g + 1) included "/") := rfl
      rw [hstep, hg]
      rfl

end LlamaConfig
